import Mathlib

/-!
Verification of dbt's `source_config.py` (resource configuration resolution):
merge strategies per configuration key, the FQN path walk over project
configuration trees, and cross-scope precedence in `SourceConfig.config`.

Configuration values are YAML/JSON-like data; Python dicts are modelled as
ordered association lists (insertion order preserved, keys unique in any
dict coming from Python).
-/

/-- A configuration value: booleans, integers, strings, lists and
string-keyed mappings (Python dict with insertion order). -/
inductive Value where
  | bool : Bool → Value
  | int : Int → Value
  | str : String → Value
  | list : List Value → Value
  | map : List (String × Value) → Value
  deriving Repr

/-- Structural equality of values, mirroring Python `==` on these shapes. -/
def Value.beq : Value → Value → Bool
  | .bool a, .bool b => a == b
  | .int a, .int b => a == b
  | .str a, .str b => a == b
  | .list a, .list b => beqList a b
  | .map a, .map b => beqPairs a b
  | _, _ => false
where
  beqList : List Value → List Value → Bool
    | [], [] => true
    | x :: xs, y :: ys => x.beq y && beqList xs ys
    | _, _ => false
  beqPairs : List (String × Value) → List (String × Value) → Bool
    | [], [] => true
    | (k, v) :: xs, (k', v') :: ys => k == k' && v.beq v' && beqPairs xs ys
    | _, _ => false

mutual

theorem Value.beq_iff : ∀ (a b : Value), Value.beq a b = true ↔ a = b
  | .bool _, .bool _ => by simp [Value.beq]
  | .bool _, .int _ => by simp [Value.beq]
  | .bool _, .str _ => by simp [Value.beq]
  | .bool _, .list _ => by simp [Value.beq]
  | .bool _, .map _ => by simp [Value.beq]
  | .int _, .bool _ => by simp [Value.beq]
  | .int _, .int _ => by simp [Value.beq]
  | .int _, .str _ => by simp [Value.beq]
  | .int _, .list _ => by simp [Value.beq]
  | .int _, .map _ => by simp [Value.beq]
  | .str _, .bool _ => by simp [Value.beq]
  | .str _, .int _ => by simp [Value.beq]
  | .str _, .str _ => by simp [Value.beq]
  | .str _, .list _ => by simp [Value.beq]
  | .str _, .map _ => by simp [Value.beq]
  | .list _, .bool _ => by simp [Value.beq]
  | .list _, .int _ => by simp [Value.beq]
  | .list _, .str _ => by simp [Value.beq]
  | .list xs, .list ys => by
    simpa [Value.beq] using Value.beqList_iff xs ys
  | .list _, .map _ => by simp [Value.beq]
  | .map _, .bool _ => by simp [Value.beq]
  | .map _, .int _ => by simp [Value.beq]
  | .map _, .str _ => by simp [Value.beq]
  | .map _, .list _ => by simp [Value.beq]
  | .map xs, .map ys => by
    simpa [Value.beq] using Value.beqPairs_iff xs ys

theorem Value.beqList_iff :
    ∀ (xs ys : List Value), Value.beq.beqList xs ys = true ↔ xs = ys
  | [], [] => by simp [Value.beq.beqList]
  | [], _ :: _ => by simp [Value.beq.beqList]
  | _ :: _, [] => by simp [Value.beq.beqList]
  | x :: xs, y :: ys => by
    simp [Value.beq.beqList, Value.beq_iff x y, Value.beqList_iff xs ys]

theorem Value.beqPairs_iff :
    ∀ (xs ys : List (String × Value)),
      Value.beq.beqPairs xs ys = true ↔ xs = ys
  | [], [] => by simp [Value.beq.beqPairs]
  | [], _ :: _ => by simp [Value.beq.beqPairs]
  | _ :: _, [] => by simp [Value.beq.beqPairs]
  | (k, v) :: xs, (k', v') :: ys => by
    simp [Value.beq.beqPairs, Value.beq_iff v v', Value.beqPairs_iff xs ys,
      Prod.ext_iff, and_assoc]

end

instance : DecidableEq Value := fun a b =>
  decidable_of_iff (Value.beq a b = true) (Value.beq_iff a b)

/-- A Python dict of configuration values: ordered association list. -/
abbrev Config := List (String × Value)

/-- Python `d[k]` / `d.get(k)`: first (and, for genuine dicts, only) binding of `k`. -/
def getVal : Config → String → Option Value
  | [], _ => none
  | (k', v) :: rest, k => if k' = k then some v else getVal rest k

/-- Python `d[k] = v`: replace the binding of `k` in place if present, else append
at the end (Python dict insertion-order semantics). -/
def setKey : Config → String → Value → Config
  | [], k, v => [(k, v)]
  | (k', v') :: rest, k, v =>
    if k' = k then (k, v) :: rest else (k', v') :: setKey rest k v

/-- Python `d.update(other)`: apply each binding of `other` in order. -/
def updateWith (c : Config) (other : Config) : Config :=
  other.foldl (fun acc kv => setKey acc kv.1 kv.2) c

/-- The keys of a dict, in order. -/
def keysOf (c : Config) : List String := c.map Prod.fst

/-- A genuine Python dict never binds a key twice. -/
def nodupKeys (c : Config) : Bool := decide (keysOf c).Nodup

theorem getVal_setKey_self (c : Config) (k : String) (v : Value) :
    getVal (setKey c k v) k = some v := by
  induction c with
  | nil => simp [setKey, getVal]
  | cons p rest ih =>
    obtain ⟨k', v'⟩ := p
    by_cases h : k' = k <;> simp [setKey, getVal, h, ih]

theorem getVal_setKey_ne (c : Config) (k k' : String) (v : Value) (h : k' ≠ k) :
    getVal (setKey c k' v) k = getVal c k := by
  induction c with
  | nil => simp [setKey, getVal, h]
  | cons p rest ih =>
    obtain ⟨k₀, v₀⟩ := p
    by_cases h0 : k₀ = k'
    · subst h0; simp [setKey, getVal, h]
    · simp only [setKey, if_neg h0]
      by_cases h1 : k₀ = k <;> simp [getVal, h1, ih]

theorem setKey_of_getVal_eq (c : Config) (k : String) (v : Value)
    (h : getVal c k = some v) : setKey c k v = c := by
  induction c with
  | nil => simp [getVal] at h
  | cons p rest ih =>
    obtain ⟨k₀, v₀⟩ := p
    rcases eq_or_ne k₀ k with h0 | h0
    · subst h0
      simp [getVal] at h
      simp [setKey, h]
    · simp only [getVal, if_neg h0] at h
      simp [setKey, h0, ih h]

/-- Source `dbt.exceptions.raise_compiler_error`: a `ConfigurationError` carrying the
message it was raised with. -/
structure ConfigError where
  msg : String
  deriving DecidableEq, Repr

/-- The message produced at line 100/124 of `source_config.py`:
`'Invalid config field: "{}" must be a dict'.format(key)`. -/
def invalidDictMsg (key : String) : String :=
  "Invalid config field: \"" ++ key ++ "\" must be a dict"

/-- Source `_listify` (lines 24-30): a list stays itself, any other value is wrapped
in a singleton list (tuples do not arise in this data model). -/
def listify : Value → List Value
  | .list xs => xs
  | v => [v]

/-- The list elements of a value. The Python code indexes
`mutable_config[key]` unconditionally and calls `.extend` on it; its callers
guarantee the key holds a list (the scaffold invariant), so the non-list
fallback is unreachable in every use modelled here. -/
def asList : Value → List Value
  | .list xs => xs
  | _ => []

/-- The map entries of a value; same unreachable-fallback remark as
`asList`. -/
def asPairs : Value → Config
  | .map m => m
  | _ => []

/-- Source `dbt.node_types.NodeType`: the closed set of resource kinds
(modelled from the spec: the enum itself lives outside `src/`, the source
uses its `Seed`, `Snapshot` and `Test` members). -/
inductive NodeType where
  | Model | Analysis | Test | Snapshot | Operation | Seed | Source
  deriving DecidableEq, Repr

/-- Source `ConfigUpdater` (lines 33-71): strategy knowledge for configuration keys.
`AdapterSpecificConfigs` comes from the adapter class looked up by name in
`__init__`; the lookup itself is external, so the updater is parameterized by
that set directly (as an ordered list standing for the Python set). -/
structure ConfigUpdater where
  AdapterSpecificConfigs : List String
  deriving DecidableEq, Repr

/-- Source `ConfigUpdater.AppendListFields` (line 34). -/
def AppendListFields : List String := ["pre-hook", "post-hook", "tags"]

/-- Source `ConfigUpdater.ExtendDictFields` (line 35). -/
def ExtendDictFields : List String :=
  ["vars", "column_types", "quoting", "persist_docs"]

/-- Source `ConfigUpdater.DefaultClobberFields` (lines 36-57). -/
def DefaultClobberFields : List String :=
  ["alias", "schema", "enabled", "materialized", "unique_key", "database",
   "severity", "sql_header", "incremental_strategy",
   "target_database", "target_schema", "strategy", "updated_at",
   "check_cols", "quote_columns"]

/-- Source `ConfigUpdater.ClobberFields` (lines 59-61):
`DefaultClobberFields | AdapterSpecificConfigs`. -/
def ConfigUpdater.ClobberFields (u : ConfigUpdater) : List String :=
  DefaultClobberFields ++ u.AdapterSpecificConfigs

/-- Source `ConfigUpdater.ConfigKeys` (lines 63-67): the recognized keys. -/
def ConfigUpdater.ConfigKeys (u : ConfigUpdater) : List String :=
  AppendListFields ++ ExtendDictFields ++ u.ClobberFields

/-- The list extension at lines 90-92: extend `cur` with the elements of
`appendFields` not already in `cur`. The membership filter is evaluated
against `cur` as it stands before the extension, exactly as the Python list
comprehension is, so duplicates inside `appendFields` survive. -/
def appendMerge (cur appendFields : List Value) : List Value :=
  cur ++ appendFields.filter (fun f => decide (f ∉ cur))

/-- The AppendList loop of `update_config_keys_into` (lines 88-92): for each
AppendList key, extend the accumulator's list with the level's elements that
are not already present. -/
def appendLoop (relevant : Config) (m : Config) : List String → Config
  | [] => m
  | k :: ks =>
    let appendFields := listify ((getVal relevant k).getD (.list []))
    let cur := asList ((getVal m k).getD (.list []))
    appendLoop relevant (setKey m k (.list (appendMerge cur appendFields))) ks

/-- One element of a non-mapping iterable passed to Python `dict.update`:
the key-value pair it denotes, or `none` when Python raises on it. A
two-element list with a string key is a pair; a two-character string yields
its two characters as key and value; iterating a two-entry dict yields its
two keys. Lists and dicts of other sizes raise ValueError, scalars are not
iterable (TypeError), and list or dict keys are unhashable (TypeError). A
two-element list whose key is a number or boolean would build a dict with a
non-string key, which this data model's dicts cannot represent; that case
lies outside the modelled fragment. -/
def pairItem : Value → Option (String × Value)
  | .list [.str k, v] => some (k, v)
  | .str s =>
    match s.data with
    | [c1, c2] => some (⟨[c1]⟩, .str ⟨[c2]⟩)
    | _ => none
  | .map [(k1, _), (k2, _)] => some (k1, .str k2)
  | _ => none

/-- Walk the elements of a non-mapping iterable the way Python's dict merge
does: accept pair-like elements in order until one raises; return the pairs
accepted before the failure, and whether it failed. -/
def collectPairs : List Value → Config × Bool
  | [] => ([], false)
  | e :: rest =>
    match pairItem e with
    | some kv =>
      let (ps, err) := collectPairs rest
      (kv :: ps, err)
    | none => ([], true)

/-- Python `dict.update(value)` for this data model: the pairs it applies,
in order, and whether it raises one of the errors the source catches
(`ValueError`, `TypeError`, `AttributeError`). A mapping never raises; a
list applies its pair-like elements until one raises (so `[]` and lists of
key-value pairs succeed); an empty string is an empty iterable and
succeeds, a non-empty string raises at its first length-1 element; numbers
and booleans are not iterable. -/
def updateItems : Value → Config × Bool
  | .map m => (m, false)
  | .list xs => collectPairs xs
  | .str s => ([], !s.isEmpty)
  | _ => ([], true)

/-- One guarded `current.update(dictVal)` call (lines 96-101 / 120-125):
returns the updated dict value, or the compiler error naming `k` when the
current value is not a dict (its `.update` raises AttributeError) or
`updateItems` rejects `dictVal`. -/
def extendStep (cur dictVal : Value) (k : String) : Except ConfigError Value :=
  match cur with
  | .map cm =>
    if (updateItems dictVal).2 then .error ⟨invalidDictMsg k⟩
    else .ok (.map (updateWith cm (updateItems dictVal).1))
  | _ => .error ⟨invalidDictMsg k⟩

/-- The ExtendDict loop of `update_config_keys_into` (lines 94-101): shallow
dict update of the accumulator's dict with each level's value, raising the
compiler error when the guarded update does (the
`except (ValueError, TypeError, AttributeError)` handler). -/
def extendLoop (relevant : Config) (m : Config) :
    List String → Except ConfigError Config
  | [] => .ok m
  | k :: ks =>
    match extendStep ((getVal m k).getD (.map []))
        ((getVal relevant k).getD (.map [])) k with
    | .ok v => extendLoop relevant (setKey m k v) ks
    | .error e => .error e

/-- The Clobber loop of `update_config_keys_into` (lines 103-105): plain
assignment for each clobber key present in the relevant configs. -/
def clobberLoop (relevant : Config) (m : Config) : List String → Config
  | [] => m
  | k :: ks =>
    match getVal relevant k with
    | some v => clobberLoop relevant (setKey m k v) ks
    | none => clobberLoop relevant m ks

/-- Source `ConfigUpdater.update_config_keys_into` (lines 73-107). Returns the
updated accumulator together with the relevant (recognized) configs; a raised
compiler error becomes the `.error` case. -/
def ConfigUpdater.update_config_keys_into (u : ConfigUpdater)
    (mutable_config : Config) (new_configs : Config) :
    Except ConfigError (Config × Config) :=
  let relevant := new_configs.filter (fun p => decide (p.1 ∈ u.ConfigKeys))
  let m1 := appendLoop relevant mutable_config AppendListFields
  match extendLoop relevant m1 ExtendDictFields with
  | .error e => .error e
  | .ok m2 => .ok (clobberLoop relevant m2 u.ClobberFields, relevant)

/-- Source `ConfigUpdater.update_into` (lines 109-128). The accumulator is the
caller's long-lived dict, mutated item by item; the result is the state of
that dict when the call returns or raises, paired with the raised error if
any (a raise leaves the mutations made so far in place). In the ExtendDict
arm, `current_dict` aliases the stored dict when the key is present, so
pairs accepted before a failing element stay visible even though the final
assignment is skipped; when the key is absent the fresh dict is discarded on
a raise, and a stored non-dict value makes `.update` itself raise
AttributeError without mutation. -/
def ConfigUpdater.update_into (u : ConfigUpdater)
    (mutable_config : Config) : Config → Config × Option ConfigError
  | [] => (mutable_config, none)
  | (key, value) :: rest =>
    if key ∈ AppendListFields then
      let current_list := listify ((getVal mutable_config key).getD (.list []))
      u.update_into (setKey mutable_config key (.list (current_list ++ listify value))) rest
    else if key ∈ ExtendDictFields then
      match getVal mutable_config key with
      | some (.map cm) =>
        if (updateItems value).2 then
          (setKey mutable_config key
            (.map (updateWith cm (updateItems value).1)),
           some ⟨invalidDictMsg key⟩)
        else
          u.update_into (setKey mutable_config key
            (.map (updateWith cm (updateItems value).1))) rest
      | some _ => (mutable_config, some ⟨invalidDictMsg key⟩)
      | none =>
        if (updateItems value).2 then
          (mutable_config, some ⟨invalidDictMsg key⟩)
        else
          u.update_into (setKey mutable_config key
            (.map (updateWith [] (updateItems value).1))) rest
    else
      u.update_into (setKey mutable_config key value) rest

/-- The scaffold initialized at lines 135-139 of `get_project_config`: every
AppendList key holds an empty list, every ExtendDict key an empty dict. -/
def scaffoldConfig : Config :=
  ExtendDictFields.foldl (fun c k => setKey c k (.map []))
    (AppendListFields.foldl (fun c k => setKey c k (.list [])) [])

/-- The per-level body of the `for level in fqn` loop (lines 155-174),
including the re-application of the level's non-AppendList, non-ExtendDict
relevant fields (lines 167-173). Descends into the child node's entries; a
child that is present but not a dict would crash the Python code on the next
`.get`, and is modelled as an empty node. -/
def walkLevels (u : ConfigUpdater) (config : Config) (model_configs : Config) :
    List String → Except ConfigError Config
  | [] => .ok config
  | level :: rest =>
    match getVal model_configs level with
    | none => .ok config
    | some node =>
      match u.update_config_keys_into config (asPairs node) with
      | .error e => .error e
      | .ok (config', relevant) =>
        let clobber_configs := relevant.filter
          (fun p => decide (p.1 ∉ AppendListFields ∧ p.1 ∉ ExtendDictFields))
        walkLevels u (updateWith config' clobber_configs) (asPairs node) rest

/-- The same loop with the flagged re-application (lines 165-173) removed:
the variant the spec asks to compare against. -/
def walkLevelsNoReapply (u : ConfigUpdater) (config : Config)
    (model_configs : Config) : List String → Except ConfigError Config
  | [] => .ok config
  | level :: rest =>
    match getVal model_configs level with
    | none => .ok config
    | some node =>
      match u.update_config_keys_into config (asPairs node) with
      | .error e => .error e
      | .ok (config', _) =>
        walkLevelsNoReapply u config' (asPairs node) rest

/-- Source `ModelParts` (lines 205-208). -/
structure ModelParts where
  fqn : List String
  resource_type : NodeType
  deriving DecidableEq, Repr

/-- A project as seen through `HasConfigFields` plus the `project_name` and
credential pieces `SourceConfig` reads: `models`/`seeds`/`snapshots` trees
(each possibly `None`), the package name, and the credentials'
`translate_aliases` collaborator (external, kept abstract as a function). -/
structure Project where
  project_name : String
  models : Option Config
  seeds : Option Config
  snapshots : Option Config
  translate_aliases : Config → Config

/-- Source `ConfigUpdater.get_project_config` (lines 130-176). -/
def ConfigUpdater.get_project_config (u : ConfigUpdater) (model : ModelParts)
    (project : Project) : Except ConfigError Config :=
  let config := scaffoldConfig
  let tree :=
    if model.resource_type = NodeType.Seed then project.seeds
    else if model.resource_type = NodeType.Snapshot then project.snapshots
    else project.models
  match tree with
  | none => .ok config
  | some model_configs =>
    match u.update_config_keys_into config model_configs with
    | .error e => .error e
    | .ok (config1, _) => walkLevels u config1 model_configs model.fqn

/-- Variant of `get_project_config` with the redundant re-application dropped. -/
def ConfigUpdater.get_project_config_noreapply (u : ConfigUpdater)
    (model : ModelParts) (project : Project) : Except ConfigError Config :=
  let config := scaffoldConfig
  let tree :=
    if model.resource_type = NodeType.Seed then project.seeds
    else if model.resource_type = NodeType.Snapshot then project.snapshots
    else project.models
  match tree with
  | none => .ok config
  | some model_configs =>
    match u.update_config_keys_into config model_configs with
    | .error e => .error e
    | .ok (config1, _) => walkLevelsNoReapply u config1 model_configs model.fqn

mutual

/-- Modelled from the spec: `dbt.utils.deep_merge`, the generic
recursive-structure-merge collaborator (its code lives outside `src/`).
Contract (spec section 4.3/6): "merges two mappings key-wise; when both sides
hold a nested mapping at a key, merge recursively; otherwise the right-hand
value wins"; the result is a fresh mapping. -/
def deepMergeVal : Value → Value → Value
  | .map a, .map b => .map (deepMergePairs a b)
  | _, b => b

/-- Key-wise part of `deepMergeVal`, folding the right dict into the left. -/
def deepMergePairs (a : Config) : Config → Config
  | [] => a
  | (k, v) :: rest =>
    let nv :=
      match getVal a k with
      | some old => deepMergeVal old v
      | none => v
    deepMergePairs (setKey a k nv) rest

end

/-- One iteration of the `for config in configs` loop of
`ConfigUpdater.merge` (lines 189-201): pop the clobber keys into a side
dict, deep-merge the remainder, re-apply the side dict, fold into the
accumulator. -/
def mergeStep (u : ConfigUpdater) (merged_config config : Config) : Config :=
  let clobber := config.filter (fun p => decide (p.1 ∈ u.ClobberFields))
  let remainder := config.filter (fun p => decide (p.1 ∉ u.ClobberFields))
  let intermediary_merged := updateWith (deepMergePairs merged_config remainder) clobber
  updateWith merged_config intermediary_merged

/-- Source `ConfigUpdater.merge` (lines 187-202), the varargs passed as a list in
precedence order (earliest = lowest precedence). -/
def ConfigUpdater.merge (u : ConfigUpdater) (configs : List Config) : Config :=
  configs.foldl (mergeStep u) []

/-- Source `SourceConfig.get_default` (lines 226-237), a function of the resource
kind only. -/
def get_default (resource_type : NodeType) : Config :=
  let defaults : Config :=
    [("enabled", .bool true), ("materialized", .str "view")]
  let defaults :=
    if resource_type = NodeType.Seed then
      setKey defaults "materialized" (.str "seed")
    else if resource_type = NodeType.Snapshot then
      setKey defaults "materialized" (.str "snapshot")
    else defaults
  if resource_type = NodeType.Test then
    setKey defaults "severity" (.str "ERROR")
  else defaults

/-- Source `SourceConfig` (lines 211-283): the resolver's state. `updater` is the
`ConfigUpdater` built in `__init__` from the active credentials' adapter
type; `in_model_config` is the pending inline accumulator. -/
structure SourceConfig where
  active_project : Project
  own_project : Project
  model : ModelParts
  updater : ConfigUpdater
  in_model_config : Config

/-- Source `SourceConfig.load_config_from_own_project` (lines 279-280). -/
def SourceConfig.load_config_from_own_project (s : SourceConfig) :
    Except ConfigError Config :=
  s.updater.get_project_config s.model s.own_project

/-- Source `SourceConfig.load_config_from_active_project` (lines 282-283). -/
def SourceConfig.load_config_from_active_project (s : SourceConfig) :
    Except ConfigError Config :=
  s.updater.get_project_config s.model s.active_project

/-- The `config` property (lines 242-270), recomputed on each call. The
active tree is resolved before the ownership branch, as in the source. -/
def SourceConfig.config (s : SourceConfig) : Except ConfigError Config :=
  let defaults := get_default s.model.resource_type
  match s.load_config_from_active_project with
  | .error e => .error e
  | .ok active_config =>
    if s.active_project.project_name = s.own_project.project_name then
      .ok (s.updater.merge [defaults, active_config, s.in_model_config])
    else
      match s.load_config_from_own_project with
      | .error e => .error e
      | .ok own_config =>
        .ok (s.updater.merge
          [defaults, own_config, s.in_model_config, active_config])

/-- Source `SourceConfig.update_in_model_config` (lines 275-277): translate adapter
aliases, then fold into the pending in-model accumulator. Returns the state
of that accumulator when the call returns or raises, with the error if any. -/
def SourceConfig.update_in_model_config (s : SourceConfig) (config : Config) :
    Config × Option ConfigError :=
  s.updater.update_into s.in_model_config
    (s.active_project.translate_aliases config)

/-- Specification-side helper: first-appearance de-duplication, the order the
spec prescribes for AppendList keys ("each distinct element exactly once, in
order of first appearance"). -/
def firstDedup (acc : List Value) : List Value → List Value
  | [] => acc
  | x :: xs => if x ∈ acc then firstDedup acc xs else firstDedup (acc ++ [x]) xs

/-- Specification-side helper: the value for `k` supplied by the
most-precedent (latest) config that contains `k`. -/
def lastContrib (k : String) (configs : List Config) : Option Value :=
  configs.foldl
    (fun acc c => match getVal c k with | some v => some v | none => acc) none

/-- Whether `needle` occurs as a contiguous run inside `hay`. -/
def charsContain (needle : List Char) : List Char → Bool
  | [] => needle.isEmpty
  | c :: t => needle.isPrefixOf (c :: t) || charsContain needle t

/-- Whether the string `needle` occurs inside the string `hay` — "the
message names X" is read as "X occurs in the message". -/
def strMentions (hay needle : String) : Bool := charsContain needle.data hay.data

/-- The last binding of `k` (the one a repeated-key association list would
leave in force after a fold of assignments). -/
def getValLast : Config → String → Option Value
  | [], _ => none
  | (k', v) :: rest, k =>
    match getValLast rest k with
    | some w => some w
    | none => if k' = k then some v else none

theorem getVal_eq_none_iff (c : Config) (k : String) :
    getVal c k = none ↔ k ∉ keysOf c := by
  induction c with
  | nil => simp [getVal, keysOf]
  | cons p rest ih =>
    obtain ⟨k₀, v₀⟩ := p
    rcases eq_or_ne k₀ k with h | h
    · subst h; simp [getVal, keysOf]
    · simp [getVal, keysOf, h, ih, Ne.symm h]

theorem getValLast_eq_none_iff (c : Config) (k : String) :
    getValLast c k = none ↔ k ∉ keysOf c := by
  induction c with
  | nil => simp [getValLast, keysOf]
  | cons p rest ih =>
    obtain ⟨k₀, v₀⟩ := p
    simp only [getValLast, keysOf, List.map_cons, List.mem_cons]
    cases hr : getValLast rest k with
    | some w =>
      have hk : k ∈ keysOf rest := by
        by_contra hm
        rw [ih.mpr hm] at hr
        exact Option.noConfusion hr
      simp only [keysOf] at hk
      simp [hk]
    | none =>
      have hk : k ∉ keysOf rest := ih.mp hr
      simp only [keysOf] at hk
      rcases eq_or_ne k₀ k with rfl | hne
      · simp [hk]
      · simp [hne, Ne.symm hne, hk]

theorem getValLast_eq_getVal (c : Config) (k : String)
    (h : (keysOf c).Nodup) : getValLast c k = getVal c k := by
  induction c with
  | nil => rfl
  | cons p rest ih =>
    obtain ⟨k₀, v₀⟩ := p
    simp only [keysOf, List.map_cons, List.nodup_cons] at h
    rcases eq_or_ne k₀ k with he | he
    · subst he
      have : getValLast rest k₀ = none := (getValLast_eq_none_iff rest k₀).mpr h.1
      simp [getValLast, getVal, this]
    · simp only [getValLast, getVal, if_neg he, ih h.2]
      cases hv : getVal rest k <;> simp [if_neg he]

theorem getVal_updateWith (m n : Config) (k : String) :
    getVal (updateWith m n) k =
      match getValLast n k with
      | some w => some w
      | none => getVal m k := by
  induction n generalizing m with
  | nil => simp [updateWith, getValLast]
  | cons p t ih =>
    obtain ⟨k', v'⟩ := p
    have hstep : updateWith m ((k', v') :: t) = updateWith (setKey m k' v') t := rfl
    rw [hstep, ih]
    rcases eq_or_ne k' k with he | he
    · subst he
      cases ht : getValLast t k' <;> simp [getValLast, ht, getVal_setKey_self]
    · cases ht : getValLast t k <;>
        simp [getValLast, ht, if_neg he, getVal_setKey_ne m k k' v' he]

theorem getVal_filter_keyUniform (c : Config) (p : String → Bool) (k : String) :
    getVal (c.filter (fun q => p q.1)) k =
      if p k then getVal c k else none := by
  induction c with
  | nil => simp [getVal]
  | cons q rest ih =>
    obtain ⟨k₀, v₀⟩ := q
    rcases eq_or_ne k₀ k with he | he
    · subst he
      cases hp : p k₀ <;> simp [List.filter_cons, hp, getVal, ih]
    · cases hp : p k₀ <;> simp [List.filter_cons, hp, getVal, he, ih]

theorem keysOf_setKey_mem (c : Config) (k : String) (v : Value)
    (h : k ∈ keysOf c) : keysOf (setKey c k v) = keysOf c := by
  induction c with
  | nil => simp [keysOf] at h
  | cons p rest ih =>
    obtain ⟨k₀, v₀⟩ := p
    rcases eq_or_ne k₀ k with rfl | he
    · simp [setKey, keysOf]
    · simp only [keysOf, List.map_cons, List.mem_cons] at h
      rcases h with h | h
      · exact absurd h.symm he
      · simp only [setKey, if_neg he, keysOf, List.map_cons]
        simp only [keysOf] at ih
        rw [ih h]

theorem keysOf_setKey_not_mem (c : Config) (k : String) (v : Value)
    (h : k ∉ keysOf c) : keysOf (setKey c k v) = keysOf c ++ [k] := by
  induction c with
  | nil => simp [setKey, keysOf]
  | cons p rest ih =>
    obtain ⟨k₀, v₀⟩ := p
    simp only [keysOf, List.map_cons, List.mem_cons] at h
    push_neg at h
    simp only [setKey, if_neg (Ne.symm h.1), keysOf, List.map_cons,
      List.cons_append]
    simp only [keysOf] at ih
    rw [ih h.2]

theorem nodupKeys_setKey (c : Config) (k : String) (v : Value)
    (h : (keysOf c).Nodup) : (keysOf (setKey c k v)).Nodup := by
  by_cases hm : k ∈ keysOf c
  · rw [keysOf_setKey_mem c k v hm]; exact h
  · rw [keysOf_setKey_not_mem c k v hm]
    simpa [List.nodup_append] using ⟨h, fun hk => hm hk⟩

theorem nodupKeys_updateWith (m n : Config) (h : (keysOf m).Nodup) :
    (keysOf (updateWith m n)).Nodup := by
  induction n generalizing m with
  | nil => exact h
  | cons p t ih =>
    exact ih (setKey m p.1 p.2) (nodupKeys_setKey m p.1 p.2 h)

theorem nodupKeys_deepMergePairs (a b : Config) (h : (keysOf a).Nodup) :
    (keysOf (deepMergePairs a b)).Nodup := by
  induction b generalizing a with
  | nil => simpa [deepMergePairs] using h
  | cons p t ih =>
    obtain ⟨k, v⟩ := p
    rw [deepMergePairs]
    exact ih _ (nodupKeys_setKey a k _ h)

theorem getVal_deepMergePairs_not_mem (a b : Config) (k : String)
    (h : k ∉ keysOf b) : getVal (deepMergePairs a b) k = getVal a k := by
  induction b generalizing a with
  | nil => simp [deepMergePairs]
  | cons p t ih =>
    obtain ⟨k', v'⟩ := p
    simp only [keysOf, List.map_cons, List.mem_cons] at h
    push_neg at h
    rw [deepMergePairs, ih _ h.2, getVal_setKey_ne _ _ _ _ (Ne.symm h.1)]

theorem not_mem_keysOf_filter (c : Config) (p : String → Bool) (k : String)
    (h : p k = false) : k ∉ keysOf (c.filter (fun q => p q.1)) := by
  rw [← getVal_eq_none_iff, getVal_filter_keyUniform, h]
  simp

theorem getVal_appendLoop_not_mem (relevant m : Config) (ks : List String)
    (k : String) (h : k ∉ ks) :
    getVal (appendLoop relevant m ks) k = getVal m k := by
  induction ks generalizing m with
  | nil => rfl
  | cons k₀ t ih =>
    simp only [List.mem_cons] at h
    push_neg at h
    simp only [appendLoop]
    rw [ih _ h.2, getVal_setKey_ne _ _ _ _ (Ne.symm h.1)]

theorem getVal_appendLoop_mem (relevant m : Config) (ks : List String)
    (k : String) (hnd : ks.Nodup) (hk : k ∈ ks) :
    getVal (appendLoop relevant m ks) k =
      some (.list (appendMerge (asList ((getVal m k).getD (.list [])))
        (listify ((getVal relevant k).getD (.list []))))) := by
  induction ks generalizing m with
  | nil => simp at hk
  | cons k₀ t ih =>
    simp only [List.nodup_cons] at hnd
    simp only [appendLoop]
    rcases List.mem_cons.mp hk with rfl | hmem
    · rw [getVal_appendLoop_not_mem _ _ _ _ hnd.1, getVal_setKey_self]
    · have hne : k₀ ≠ k := fun he => hnd.1 (he ▸ hmem)
      rw [ih _ hnd.2 hmem, getVal_setKey_ne _ _ _ _ hne]

theorem getVal_extendLoop_not_mem (relevant : Config) (ks : List String)
    (m m2 : Config) (k : String) (h : k ∉ ks)
    (hok : extendLoop relevant m ks = .ok m2) :
    getVal m2 k = getVal m k := by
  induction ks generalizing m with
  | nil =>
    simp only [extendLoop, Except.ok.injEq] at hok
    rw [hok]
  | cons k₀ t ih =>
    simp only [List.mem_cons] at h
    push_neg at h
    simp only [extendLoop] at hok
    split at hok
    · rw [ih _ h.2 hok, getVal_setKey_ne _ _ _ _ (Ne.symm h.1)]
    · exact absurd hok (by simp)

theorem extendStep_ok_elim (cur dictVal : Value) (k : String) (v : Value)
    (h : extendStep cur dictVal k = .ok v) :
    ∃ cm, cur = .map cm ∧ (updateItems dictVal).2 = false ∧
      v = .map (updateWith cm (updateItems dictVal).1) := by
  cases cur with
  | map cm =>
    by_cases hr : (updateItems dictVal).2 = true
    · rw [extendStep, if_pos hr] at h
      exact absurd h (by simp)
    · rw [extendStep, if_neg hr] at h
      simp only [Except.ok.injEq] at h
      exact ⟨cm, rfl, by simpa using hr, h.symm⟩
  | bool b => exact absurd h (by simp [extendStep])
  | int i => exact absurd h (by simp [extendStep])
  | str s => exact absurd h (by simp [extendStep])
  | list xs => exact absurd h (by simp [extendStep])

theorem extendStep_error_of_raises (cur dictVal : Value) (k : String)
    (h : (updateItems dictVal).2 = true) :
    extendStep cur dictVal k = .error ⟨invalidDictMsg k⟩ := by
  cases cur <;> simp [extendStep, h]

theorem extendStep_ok_of_map (cm : List (String × Value)) (dictVal : Value)
    (k : String) (h : (updateItems dictVal).2 = false) :
    extendStep (.map cm) dictVal k =
      .ok (.map (updateWith cm (updateItems dictVal).1)) := by
  simp [extendStep, h]

theorem getVal_extendLoop_mem (relevant : Config) (ks : List String)
    (m m2 : Config) (k : String) (hnd : ks.Nodup) (hk : k ∈ ks)
    (hok : extendLoop relevant m ks = .ok m2) :
    ∃ cm, (getVal m k).getD (.map []) = .map cm ∧
      (updateItems ((getVal relevant k).getD (.map []))).2 = false ∧
      getVal m2 k = some (.map (updateWith cm
        (updateItems ((getVal relevant k).getD (.map []))).1)) := by
  induction ks generalizing m with
  | nil => simp at hk
  | cons k₀ t ih =>
    simp only [List.nodup_cons] at hnd
    simp only [extendLoop] at hok
    rcases List.mem_cons.mp hk with rfl | hmem
    · split at hok
      · next v hstep =>
        obtain ⟨cm, hcm, hraise, hv⟩ := extendStep_ok_elim _ _ _ _ hstep
        refine ⟨cm, hcm, hraise, ?_⟩
        rw [getVal_extendLoop_not_mem _ _ _ _ _ hnd.1 hok, getVal_setKey_self,
          hv]
      · exact absurd hok (by simp)
    · have hne : k₀ ≠ k := fun he => hnd.1 (he ▸ hmem)
      split at hok
      · have := ih _ hnd.2 hmem hok
        rwa [getVal_setKey_ne _ _ _ _ hne] at this
      · exact absurd hok (by simp)

theorem extendLoop_error (relevant : Config) (ks : List String) (m : Config)
    (hshape : ∀ k ∈ ks, ∃ cm, (getVal m k).getD (.map []) = .map cm)
    (hnd : ks.Nodup)
    (hbad : ∃ k ∈ ks,
      (updateItems ((getVal relevant k).getD (.map []))).2 = true) :
    ∃ k ∈ ks, (updateItems ((getVal relevant k).getD (.map []))).2 = true ∧
      extendLoop relevant m ks = .error ⟨invalidDictMsg k⟩ := by
  induction ks generalizing m with
  | nil => simp at hbad
  | cons k₀ t ih =>
    simp only [List.nodup_cons] at hnd
    obtain ⟨cm, hcm⟩ := hshape k₀ (List.mem_cons_self _ _)
    by_cases hb0 : (updateItems ((getVal relevant k₀).getD (.map []))).2 = true
    · refine ⟨k₀, List.mem_cons_self _ _, hb0, ?_⟩
      simp only [extendLoop, extendStep_error_of_raises _ _ _ hb0]
    · simp only [Bool.not_eq_true] at hb0
      have hbt : ∃ k ∈ t,
          (updateItems ((getVal relevant k).getD (.map []))).2 = true := by
        obtain ⟨k, hkmem, hkbad⟩ := hbad
        rcases List.mem_cons.mp hkmem with rfl | hmem
        · rw [hb0] at hkbad
          exact absurd hkbad (by simp)
        · exact ⟨k, hmem, hkbad⟩
      have hshape' : ∀ k ∈ t, ∃ cm',
          (getVal (setKey m k₀ (.map (updateWith cm
            (updateItems ((getVal relevant k₀).getD (.map []))).1))) k).getD
            (.map []) = .map cm' := by
        intro k hkmem
        have hne : k₀ ≠ k := fun he => hnd.1 (he ▸ hkmem)
        rw [getVal_setKey_ne _ _ _ _ hne]
        exact hshape k (List.mem_cons_of_mem _ hkmem)
      obtain ⟨k, hkmem, hkbad, hres⟩ := ih _ hshape' hnd.2 hbt
      refine ⟨k, List.mem_cons_of_mem _ hkmem, hkbad, ?_⟩
      simp only [extendLoop, hcm, extendStep_ok_of_map _ _ _ hb0]
      exact hres

theorem getVal_clobberLoop (relevant m : Config) (ks : List String)
    (k : String) :
    getVal (clobberLoop relevant m ks) k =
      if k ∈ ks ∧ (getVal relevant k).isSome then getVal relevant k
      else getVal m k := by
  induction ks generalizing m with
  | nil => simp [clobberLoop]
  | cons k₀ t ih =>
    rcases eq_or_ne k₀ k with rfl | hne
    · cases hr : getVal relevant k₀ with
      | some v =>
        simp only [clobberLoop, hr]
        rw [ih]
        by_cases ht : k₀ ∈ t
        · simp [ht, hr]
        · simp [ht, hr, getVal_setKey_self]
      | none =>
        simp only [clobberLoop, hr]
        rw [ih]
        simp [hr]
    · cases hr : getVal relevant k₀ with
      | some v =>
        simp only [clobberLoop, hr]
        rw [ih, getVal_setKey_ne _ _ _ _ hne]
        simp [List.mem_cons, Ne.symm hne]
      | none =>
        simp only [clobberLoop, hr]
        rw [ih]
        simp [List.mem_cons, Ne.symm hne]

theorem append_not_extend (k : String) (hk : k ∈ AppendListFields) :
    k ∉ ExtendDictFields := by
  simp only [AppendListFields, List.mem_cons, List.not_mem_nil, or_false] at hk
  rcases hk with rfl | rfl | rfl <;> decide

theorem append_not_defaultClobber (k : String) (hk : k ∈ AppendListFields) :
    k ∉ DefaultClobberFields := by
  simp only [AppendListFields, List.mem_cons, List.not_mem_nil, or_false] at hk
  rcases hk with rfl | rfl | rfl <;> decide

theorem extend_not_append (k : String) (hk : k ∈ ExtendDictFields) :
    k ∉ AppendListFields := by
  simp only [ExtendDictFields, List.mem_cons, List.not_mem_nil, or_false] at hk
  rcases hk with rfl | rfl | rfl | rfl <;> decide

theorem extend_not_defaultClobber (k : String) (hk : k ∈ ExtendDictFields) :
    k ∉ DefaultClobberFields := by
  simp only [ExtendDictFields, List.mem_cons, List.not_mem_nil, or_false] at hk
  rcases hk with rfl | rfl | rfl | rfl <;> decide

theorem mem_configKeys_iff (u : ConfigUpdater) (k : String) :
    k ∈ u.ConfigKeys ↔
      k ∈ AppendListFields ∨ k ∈ ExtendDictFields ∨ k ∈ u.ClobberFields := by
  simp [ConfigUpdater.ConfigKeys, List.mem_append, or_assoc]

theorem mem_clobber_iff (u : ConfigUpdater) (k : String) :
    k ∈ u.ClobberFields ↔
      k ∈ DefaultClobberFields ∨ k ∈ u.AdapterSpecificConfigs := by
  simp [ConfigUpdater.ClobberFields, List.mem_append]

theorem getVal_relevant_recognized (u : ConfigUpdater) (new : Config)
    (k : String) (hk : k ∈ u.ConfigKeys) :
    getVal (new.filter (fun p => decide (p.1 ∈ u.ConfigKeys))) k =
      getVal new k := by
  have h := getVal_filter_keyUniform new (fun s => decide (s ∈ u.ConfigKeys)) k
  rw [if_pos (by simp [hk])] at h
  exact h

theorem getVal_relevant_unrecognized (u : ConfigUpdater) (new : Config)
    (k : String) (hk : k ∉ u.ConfigKeys) :
    getVal (new.filter (fun p => decide (p.1 ∈ u.ConfigKeys))) k = none := by
  have h := getVal_filter_keyUniform new (fun s => decide (s ∈ u.ConfigKeys)) k
  rw [if_neg (by simp [hk])] at h
  exact h

theorem ucki_ok_elim (u : ConfigUpdater) (m new m' rel : Config)
    (hok : u.update_config_keys_into m new = .ok (m', rel)) :
    rel = new.filter (fun p => decide (p.1 ∈ u.ConfigKeys)) ∧
    ∃ m2, extendLoop rel (appendLoop rel m AppendListFields) ExtendDictFields
        = .ok m2 ∧
      m' = clobberLoop rel m2 u.ClobberFields := by
  simp only [ConfigUpdater.update_config_keys_into] at hok
  split at hok
  · exact absurd hok (by simp)
  · next m2 heq =>
    simp only [Except.ok.injEq, Prod.mk.injEq] at hok
    obtain ⟨h1, h2⟩ := hok
    subst h2
    exact ⟨rfl, m2, heq, h1.symm⟩

theorem ucki_append_key (u : ConfigUpdater) (m new m' rel : Config)
    (k : String) (hk : k ∈ AppendListFields)
    (hna : k ∉ u.AdapterSpecificConfigs)
    (hok : u.update_config_keys_into m new = .ok (m', rel)) :
    getVal m' k =
      some (.list (appendMerge (asList ((getVal m k).getD (.list [])))
        (listify ((getVal new k).getD (.list []))))) := by
  obtain ⟨hrel, m2, hext, hm'⟩ := ucki_ok_elim u m new m' rel hok
  have hclob : k ∉ u.ClobberFields := by
    rw [mem_clobber_iff]
    push_neg
    exact ⟨append_not_defaultClobber k hk, hna⟩
  rw [hm', getVal_clobberLoop]
  simp only [hclob, false_and, if_false]
  rw [getVal_extendLoop_not_mem _ _ _ _ _ (append_not_extend k hk) hext,
    getVal_appendLoop_mem _ _ _ _ (by decide) hk, hrel,
    getVal_relevant_recognized u new k
      ((mem_configKeys_iff u k).mpr (Or.inl hk))]

theorem ucki_extend_key (u : ConfigUpdater) (m new m' rel : Config)
    (k : String) (hk : k ∈ ExtendDictFields)
    (hna : k ∉ u.AdapterSpecificConfigs)
    (hok : u.update_config_keys_into m new = .ok (m', rel)) :
    ∃ cm, (getVal m k).getD (.map []) = .map cm ∧
      (updateItems ((getVal new k).getD (.map []))).2 = false ∧
      getVal m' k = some (.map (updateWith cm
        (updateItems ((getVal new k).getD (.map []))).1)) := by
  obtain ⟨hrel, m2, hext, hm'⟩ := ucki_ok_elim u m new m' rel hok
  have hclob : k ∉ u.ClobberFields := by
    rw [mem_clobber_iff]
    push_neg
    exact ⟨extend_not_defaultClobber k hk, hna⟩
  obtain ⟨cm, hcm, hraise, hres⟩ :=
    getVal_extendLoop_mem _ _ _ _ _ (by decide) hk hext
  rw [getVal_appendLoop_not_mem _ _ _ _ (extend_not_append k hk)] at hcm
  rw [hrel, getVal_relevant_recognized u new k
    ((mem_configKeys_iff u k).mpr (Or.inr (Or.inl hk)))] at hraise hres
  refine ⟨cm, hcm, hraise, ?_⟩
  rw [hm', getVal_clobberLoop]
  simp only [hclob, false_and, if_false]
  exact hres

theorem ucki_clobber_key (u : ConfigUpdater) (m new m' rel : Config)
    (k : String) (h1 : k ∉ AppendListFields) (h2 : k ∉ ExtendDictFields)
    (h3 : k ∈ u.ClobberFields)
    (hok : u.update_config_keys_into m new = .ok (m', rel)) :
    getVal m' k =
      if (getVal new k).isSome then getVal new k else getVal m k := by
  obtain ⟨hrel, m2, hext, hm'⟩ := ucki_ok_elim u m new m' rel hok
  have hrec : k ∈ u.ConfigKeys := (mem_configKeys_iff u k).mpr (Or.inr (Or.inr h3))
  rw [hm', getVal_clobberLoop, hrel, getVal_relevant_recognized u new k hrec]
  rw [getVal_extendLoop_not_mem _ _ _ _ _ h2 hext,
    getVal_appendLoop_not_mem _ _ _ _ h1]
  simp [h3]

theorem ucki_unrecognized_key (u : ConfigUpdater) (m new m' rel : Config)
    (k : String) (hk : k ∉ u.ConfigKeys)
    (hok : u.update_config_keys_into m new = .ok (m', rel)) :
    getVal m' k = getVal m k ∧ getVal rel k = none := by
  obtain ⟨hrel, m2, hext, hm'⟩ := ucki_ok_elim u m new m' rel hok
  rw [mem_configKeys_iff] at hk
  push_neg at hk
  obtain ⟨h1, h2, h3⟩ := hk
  constructor
  · rw [hm', getVal_clobberLoop]
    simp only [h3, false_and, if_false]
    rw [getVal_extendLoop_not_mem _ _ _ _ _ h2 hext,
      getVal_appendLoop_not_mem _ _ _ _ h1]
  · rw [hrel, getVal_relevant_unrecognized]
    rw [mem_configKeys_iff]
    push_neg
    exact ⟨h1, h2, h3⟩

theorem ucki_error (u : ConfigUpdater) (m new : Config)
    (hshape : ∀ k ∈ ExtendDictFields,
      ∃ cm, (getVal m k).getD (.map []) = .map cm)
    (hbad : ∃ k ∈ ExtendDictFields,
      (updateItems ((getVal new k).getD (.map []))).2 = true) :
    ∃ k ∈ ExtendDictFields,
      (updateItems ((getVal new k).getD (.map []))).2 = true ∧
      u.update_config_keys_into m new = .error ⟨invalidDictMsg k⟩ := by
  have htrans : ∀ k ∈ ExtendDictFields,
      getVal (new.filter (fun p => decide (p.1 ∈ u.ConfigKeys))) k =
        getVal new k := fun k hk =>
    getVal_relevant_recognized u new k
      ((mem_configKeys_iff u k).mpr (Or.inr (Or.inl hk)))
  have hshape' : ∀ k ∈ ExtendDictFields,
      ∃ cm, (getVal (appendLoop
          (new.filter (fun p => decide (p.1 ∈ u.ConfigKeys))) m
          AppendListFields) k).getD (.map []) = .map cm := by
    intro k hk
    rw [getVal_appendLoop_not_mem _ _ _ _ (extend_not_append k hk)]
    exact hshape k hk
  have hbad' : ∃ k ∈ ExtendDictFields,
      (updateItems ((getVal (new.filter
        (fun p => decide (p.1 ∈ u.ConfigKeys))) k).getD (.map []))).2
        = true := by
    obtain ⟨k, hk, hb⟩ := hbad
    exact ⟨k, hk, by rw [htrans k hk]; exact hb⟩
  obtain ⟨k, hk, hb, herr⟩ := extendLoop_error _ _ _ hshape' (by decide) hbad'
  refine ⟨k, hk, by rw [← htrans k hk]; exact hb, ?_⟩
  simp only [ConfigUpdater.update_config_keys_into, herr]

theorem getVal_updateWith_clobberPart (m n : Config) (k : String)
    (hk : k ∈ AppendListFields ∨ k ∈ ExtendDictFields) :
    getVal (updateWith m (n.filter
      (fun p => decide (p.1 ∉ AppendListFields ∧ p.1 ∉ ExtendDictFields)))) k =
    getVal m k := by
  rw [getVal_updateWith]
  have hnone : getValLast (n.filter
      (fun p => decide (p.1 ∉ AppendListFields ∧ p.1 ∉ ExtendDictFields))) k
      = none := by
    rw [getValLast_eq_none_iff]
    exact not_mem_keysOf_filter n
      (fun s => decide (s ∉ AppendListFields ∧ s ∉ ExtendDictFields)) k
      (by rcases hk with h | h <;> simp [h])
  rw [hnone]

theorem walk_append_shape (u : ConfigUpdater) (fqn : List String)
    (config mcs cfg : Config) (k : String) (hk : k ∈ AppendListFields)
    (hna : k ∉ u.AdapterSpecificConfigs)
    (hshape : ∃ xs, getVal config k = some (.list xs))
    (hok : walkLevels u config mcs fqn = .ok cfg) :
    ∃ xs, getVal cfg k = some (.list xs) := by
  induction fqn generalizing config mcs with
  | nil =>
    simp only [walkLevels, Except.ok.injEq] at hok
    exact hok ▸ hshape
  | cons level rest ih =>
    simp only [walkLevels] at hok
    split at hok
    · simp only [Except.ok.injEq] at hok
      exact hok ▸ hshape
    · next node hnode =>
      split at hok
      · exact absurd hok (by simp)
      · next config' rel heq =>
        refine ih _ _ ?_ hok
        rw [getVal_updateWith_clobberPart _ _ _ (Or.inl hk)]
        exact ⟨_, ucki_append_key u config (asPairs node) config' rel k hk hna heq⟩

theorem walk_extend_shape (u : ConfigUpdater) (fqn : List String)
    (config mcs cfg : Config) (k : String) (hk : k ∈ ExtendDictFields)
    (hna : k ∉ u.AdapterSpecificConfigs)
    (hshape : ∃ pm, getVal config k = some (.map pm))
    (hok : walkLevels u config mcs fqn = .ok cfg) :
    ∃ pm, getVal cfg k = some (.map pm) := by
  induction fqn generalizing config mcs with
  | nil =>
    simp only [walkLevels, Except.ok.injEq] at hok
    exact hok ▸ hshape
  | cons level rest ih =>
    simp only [walkLevels] at hok
    split at hok
    · simp only [Except.ok.injEq] at hok
      exact hok ▸ hshape
    · next node hnode =>
      split at hok
      · exact absurd hok (by simp)
      · next config' rel heq =>
        refine ih _ _ ?_ hok
        rw [getVal_updateWith_clobberPart _ _ _ (Or.inr hk)]
        obtain ⟨cm, _, _, hres⟩ :=
          ucki_extend_key u config (asPairs node) config' rel k hk hna heq
        exact ⟨_, hres⟩

theorem scaffold_append_shape (k : String) (hk : k ∈ AppendListFields) :
    getVal scaffoldConfig k = some (.list []) := by
  simp only [AppendListFields, List.mem_cons, List.not_mem_nil, or_false] at hk
  rcases hk with rfl | rfl | rfl <;> decide

theorem scaffold_extend_shape (k : String) (hk : k ∈ ExtendDictFields) :
    getVal scaffoldConfig k = some (.map []) := by
  simp only [ExtendDictFields, List.mem_cons, List.not_mem_nil, or_false] at hk
  rcases hk with rfl | rfl | rfl | rfl <;> decide

/-- C7: every configuration successfully produced by `get_project_config`
maps each AppendList key to a list and each ExtendDict key to a dict (the
scaffold starts that way and every level merge preserves it). The
disjointness hypotheses state the spec's own invariant that a key has at
most one strategy (adapter-specific clobber keys do not overlap the
AppendList/ExtendDict keys). -/
theorem claim_C7 (u : ConfigUpdater) (model : ModelParts) (project : Project)
    (cfg : Config)
    (hdisjA : ∀ k ∈ AppendListFields, k ∉ u.AdapterSpecificConfigs)
    (hdisjE : ∀ k ∈ ExtendDictFields, k ∉ u.AdapterSpecificConfigs)
    (hok : u.get_project_config model project = .ok cfg) :
    (∀ k ∈ AppendListFields, ∃ xs, getVal cfg k = some (.list xs)) ∧
    (∀ k ∈ ExtendDictFields, ∃ pm, getVal cfg k = some (.map pm)) := by
  simp only [ConfigUpdater.get_project_config] at hok
  split at hok
  · simp only [Except.ok.injEq] at hok
    subst hok
    exact ⟨fun k hk => ⟨[], scaffold_append_shape k hk⟩,
      fun k hk => ⟨[], scaffold_extend_shape k hk⟩⟩
  · next mcs hmcs =>
    split at hok
    · exact absurd hok (by simp)
    · next config1 rel heq =>
      constructor
      · intro k hk
        refine walk_append_shape u model.fqn config1 mcs cfg k hk
          (hdisjA k hk) ?_ hok
        exact ⟨_, ucki_append_key u scaffoldConfig mcs config1 rel k hk
          (hdisjA k hk) heq⟩
      · intro k hk
        refine walk_extend_shape u model.fqn config1 mcs cfg k hk
          (hdisjE k hk) ?_ hok
        obtain ⟨cm, _, _, hres⟩ := ucki_extend_key u scaffoldConfig mcs
          config1 rel k hk (hdisjE k hk) heq
        exact ⟨_, hres⟩

/-- Witness for C7 at a concrete input. -/
theorem claim_C7_witness :
    (∀ k ∈ AppendListFields,
      ∃ xs, getVal scaffoldConfig k = some (.list xs)) ∧
    (∀ k ∈ ExtendDictFields,
      ∃ pm, getVal scaffoldConfig k = some (.map pm)) :=
  claim_C7 ⟨[]⟩ ⟨["m1"], .Model⟩ ⟨"p", none, none, none, fun c => c⟩
    scaffoldConfig (by decide) (by decide) rfl

/-- C8: for every resource kind, `get_default` returns exactly
`{enabled: true, materialized: "view"}`, with `materialized` replaced by
`"seed"` for seeds and `"snapshot"` for snapshots, plus
`{severity: "ERROR"}` exactly when the kind is test, and no other keys. -/
theorem claim_C8 (rt : NodeType) :
    getVal (get_default rt) "enabled" = some (.bool true) ∧
    getVal (get_default rt) "materialized" =
      some (.str (if rt = NodeType.Seed then "seed"
        else if rt = NodeType.Snapshot then "snapshot" else "view")) ∧
    getVal (get_default rt) "severity" =
      (if rt = NodeType.Test then some (.str "ERROR") else none) ∧
    ∀ p ∈ get_default rt,
      p.1 = "enabled" ∨ p.1 = "materialized" ∨ p.1 = "severity" := by
  cases rt <;> refine ⟨by decide, by decide, by decide, by decide⟩

/-- C2: the path walk stops without error at the first segment whose child
node is absent, ignoring the remaining segments; and when no segment below
the kind level matches, `get_project_config` returns exactly the kind-level
scaffold (the scaffold merged with only the top level of the kind
sub-tree). -/
theorem claim_C2 (u : ConfigUpdater) (config mcs : Config) (level : String)
    (rest : List String) (model : ModelParts) (project : Project)
    (hchild : getVal mcs level = none)
    (htree : (if model.resource_type = NodeType.Seed then project.seeds
      else if model.resource_type = NodeType.Snapshot then project.snapshots
      else project.models) = some mcs)
    (hnomatch : ∀ s, model.fqn.head? = some s → getVal mcs s = none) :
    walkLevels u config mcs (level :: rest) = .ok config ∧
    u.get_project_config model project =
      (u.update_config_keys_into scaffoldConfig mcs).map Prod.fst := by
  constructor
  · simp [walkLevels, hchild]
  · simp only [ConfigUpdater.get_project_config]
    rw [htree]
    cases hres : u.update_config_keys_into scaffoldConfig mcs with
    | error e => simp [hres, Except.map]
    | ok pr =>
      obtain ⟨config1, rel⟩ := pr
      cases hfqn : model.fqn with
      | nil =>
        simp only [walkLevels]
        rw [hres]
        rfl
      | cons s t =>
        have hs := hnomatch s (by simp [hfqn])
        simp only [walkLevels, hs]
        rw [hres]
        rfl

/-- Witness for C2 at a concrete input. -/
theorem claim_C2_witness :
    walkLevels ⟨["bind"]⟩ scaffoldConfig
        [("materialized", Value.str "table")] ["x", "y"] = .ok scaffoldConfig ∧
    ConfigUpdater.get_project_config ⟨["bind"]⟩ ⟨["m1"], .Model⟩
        ⟨"p", some [("materialized", Value.str "table")], none, none,
          fun c => c⟩ =
      (ConfigUpdater.update_config_keys_into ⟨["bind"]⟩ scaffoldConfig
        [("materialized", Value.str "table")]).map Prod.fst :=
  claim_C2 ⟨["bind"]⟩ scaffoldConfig [("materialized", Value.str "table")]
    "x" ["y"] ⟨["m1"], .Model⟩
    ⟨"p", some [("materialized", Value.str "table")], none, none, fun c => c⟩
    (by decide) rfl
    (fun s hs => by
      simp only [List.head?_cons, Option.some.injEq] at hs
      subst hs
      decide)

theorem isPrefixOf_eq_true (n : List Char) (hay : List Char) (h : n <+: hay) :
    n.isPrefixOf hay = true := by
  induction n generalizing hay with
  | nil => cases hay <;> rfl
  | cons x xs ih =>
    obtain ⟨t, ht⟩ := h
    subst ht
    simp only [List.cons_append, List.isPrefixOf, beq_self_eq_true,
      Bool.true_and]
    exact ih (xs ++ t) ⟨t, rfl⟩

theorem charsContain_of_isPref (n hay : List Char) (h : n <+: hay) :
    charsContain n hay = true := by
  cases hay with
  | nil =>
    obtain ⟨t, ht⟩ := h
    rcases List.append_eq_nil.mp ht with ⟨rfl, rfl⟩
    rfl
  | cons c t =>
    simp [charsContain, isPrefixOf_eq_true n (c :: t) h]

theorem charsContain_of_isInf (n hay : List Char) (h : n <:+: hay) :
    charsContain n hay = true := by
  induction hay with
  | nil =>
    obtain ⟨s, t, hst⟩ := h
    rcases List.append_eq_nil.mp hst with ⟨h1, rfl⟩
    rcases List.append_eq_nil.mp h1 with ⟨rfl, rfl⟩
    rfl
  | cons c t ih =>
    obtain ⟨s, t', hst⟩ := h
    cases s with
    | nil =>
      exact charsContain_of_isPref n (c :: t) ⟨t', by simpa using hst⟩
    | cons c' s' =>
      simp only [List.cons_append, List.cons.injEq] at hst
      have : charsContain n t = true := ih ⟨s', t', hst.2⟩
      simp [charsContain, this]

theorem strMentions_invalidDictMsg (k : String) :
    strMentions (invalidDictMsg k) k = true := by
  apply charsContain_of_isInf
  refine ⟨("Invalid config field: \"" : String).data,
    ("\" must be a dict" : String).data, ?_⟩
  simp [invalidDictMsg, String.data_append, List.append_assoc]

/-- C5 counterexample, in two parts. A non-map `vars: 1` declared at path
segment "staging" raises a `ConfigurationError` whose message names the key
`vars` but not the segment `staging` — so the message does not name the
scope path segment. And the non-map value `vars: []` is accepted by the
underlying dict update and raises nothing at all — so not every non-map
ExtendMap value fails: the merge returns a configuration normally. -/
theorem claim_C5_cex :
    (ConfigUpdater.get_project_config ⟨[]⟩ ⟨["staging"], .Model⟩
        ⟨"p", some [("staging", Value.map [("vars", Value.int 1)])], none,
          none, fun c => c⟩ =
      .error ⟨invalidDictMsg "vars"⟩ ∧
    strMentions (invalidDictMsg "vars") "vars" = true ∧
    strMentions (invalidDictMsg "vars") "staging" = false) ∧
    ConfigUpdater.update_config_keys_into ⟨[]⟩ scaffoldConfig
        [("vars", Value.list [])] =
      .ok (scaffoldConfig, [("vars", Value.list [])]) ∧
    ConfigUpdater.update_into ⟨[]⟩ []
        [("vars", Value.list [.list [.str "x", .int 1]])] =
      ([("vars", Value.map [("x", Value.int 1)])], none) :=
  ⟨⟨rfl, by decide, by decide⟩, rfl, rfl⟩

theorem update_into_raises (u : ConfigUpdater) (m rest : Config)
    (k : String) (v : Value) (hk : k ∈ ExtendDictFields)
    (hv : updateItems v = ([], true)) :
    u.update_into m ((k, v) :: rest) = (m, some ⟨invalidDictMsg k⟩) := by
  have h1 : k ∉ AppendListFields := extend_not_append k hk
  simp only [ConfigUpdater.update_into, if_neg h1, if_pos hk]
  cases hcur : getVal m k with
  | none => simp [hv]
  | some cur =>
    cases cur with
    | map cm =>
      simp [hv]
      exact setKey_of_getVal_eq m k (Value.map cm) hcur
    | bool b => rfl
    | int i => rfl
    | str s2 => rfl
    | list xs => rfl

/-- C5 (amended): a value for an ExtendMap key on which the dict update
raises — a number, a boolean, a non-empty string, a list with a bad first
element — makes `update_config_keys_into` fail with a `ConfigurationError`
whose message names the offending key (but not the scope path segment), and
makes `update_into` fail likewise, leaving its accumulator as it stood; no
configuration is returned alongside the error. Values the dict update
accepts — a mapping, an empty list or string, a list of key-value pairs —
are merged without error (see the counterexample). -/
theorem claim_C5 (u : ConfigUpdater) (m new pending rest : Config)
    (k : String) (v : Value)
    (hshape : ∀ k' ∈ ExtendDictFields,
      ∃ cm, (getVal m k').getD (.map []) = .map cm)
    (hbad : ∃ k' ∈ ExtendDictFields,
      (updateItems ((getVal new k').getD (.map []))).2 = true)
    (hk : k ∈ ExtendDictFields) (hv : updateItems v = ([], true)) :
    (∃ k' ∈ ExtendDictFields,
      (updateItems ((getVal new k').getD (.map []))).2 = true ∧
      u.update_config_keys_into m new = .error ⟨invalidDictMsg k'⟩ ∧
      strMentions (invalidDictMsg k') k' = true) ∧
    u.update_into pending ((k, v) :: rest) =
      (pending, some ⟨invalidDictMsg k⟩) := by
  constructor
  · obtain ⟨k', hk', hb, herr⟩ := ucki_error u m new hshape hbad
    exact ⟨k', hk', hb, herr, strMentions_invalidDictMsg k'⟩
  · exact update_into_raises u pending rest k v hk hv

/-- Witness for C5 at a concrete input. -/
theorem claim_C5_witness :
    (∃ k' ∈ ExtendDictFields,
      (updateItems ((getVal [("vars", Value.int 1)] k').getD (.map []))).2
        = true ∧
      ConfigUpdater.update_config_keys_into ⟨[]⟩ scaffoldConfig
        [("vars", Value.int 1)] = .error ⟨invalidDictMsg k'⟩ ∧
      strMentions (invalidDictMsg k') k' = true) ∧
    ConfigUpdater.update_into ⟨[]⟩ [("enabled", Value.bool true)]
        [("quoting", Value.str "zap")] =
      ([("enabled", Value.bool true)], some ⟨invalidDictMsg "quoting"⟩) :=
  claim_C5 ⟨[]⟩ scaffoldConfig [("vars", Value.int 1)]
    [("enabled", Value.bool true)] [] "quoting" (Value.str "zap")
    (fun k' hk' => by
      simp only [ExtendDictFields, List.mem_cons, List.not_mem_nil,
        or_false] at hk'
      rcases hk' with rfl | rfl | rfl | rfl <;> exact ⟨[], by decide⟩)
    ⟨"vars", by decide, by decide⟩
    (by decide) (by decide)

/-- Iterated application of `update_config_keys_into`, one call per level in
sequence, as `get_project_config` performs along a path (discarding the
relevant-keys results). -/
def applyLevels (u : ConfigUpdater) (m : Config) :
    List Config → Except ConfigError Config
  | [] => .ok m
  | lvl :: rest =>
    match u.update_config_keys_into m lvl with
    | .error e => .error e
    | .ok (m', _) => applyLevels u m' rest

/-- The elements a level contributes to an AppendList key `k`. -/
def contribOf (lvl : Config) (k : String) : List Value :=
  listify ((getVal lvl k).getD (.list []))

theorem firstDedup_append (cur a b : List Value) :
    firstDedup cur (a ++ b) = firstDedup (firstDedup cur a) b := by
  induction a generalizing cur with
  | nil => rfl
  | cons x xs ih =>
    by_cases hx : x ∈ cur <;> simp [firstDedup, hx, ih]

theorem appendMerge_eq_firstDedup :
    ∀ (l cur : List Value), l.Nodup → appendMerge cur l = firstDedup cur l
  | [], cur, _ => by simp [appendMerge, firstDedup]
  | x :: xs, cur, h => by
    simp only [List.nodup_cons] at h
    by_cases hx : x ∈ cur
    · have hstep : appendMerge cur (x :: xs) = appendMerge cur xs := by
        simp [appendMerge, List.filter_cons, hx]
      rw [hstep, firstDedup, if_pos hx]
      exact appendMerge_eq_firstDedup xs cur h.2
    · have hfilter : xs.filter (fun f => decide (f ∉ cur)) =
          xs.filter (fun f => decide (f ∉ cur ++ [x])) :=
        List.filter_congr (fun y hy => by
          have hyx : y ≠ x := fun he => h.1 (he ▸ hy)
          simp [decide_eq_decide, List.mem_append, hyx])
      rw [firstDedup, if_neg hx, ← appendMerge_eq_firstDedup xs (cur ++ [x]) h.2]
      unfold appendMerge
      rw [List.filter_cons_of_pos (by simp [hx]), ← hfilter]
      simp [List.append_assoc]

theorem firstDedup_nodup :
    ∀ (l cur : List Value), cur.Nodup → (firstDedup cur l).Nodup
  | [], _, h => h
  | x :: xs, cur, h => by
    by_cases hx : x ∈ cur
    · rw [firstDedup, if_pos hx]
      exact firstDedup_nodup xs cur h
    · rw [firstDedup, if_neg hx]
      refine firstDedup_nodup xs (cur ++ [x]) ?_
      simp [List.nodup_append, h, hx]

theorem applyLevels_append_key (u : ConfigUpdater) (levels : List Config)
    (k : String) (m mfin : Config) (cur : List Value)
    (hk : k ∈ AppendListFields) (hna : k ∉ u.AdapterSpecificConfigs)
    (hcur : getVal m k = some (.list cur))
    (hnd : ∀ lvl ∈ levels, (contribOf lvl k).Nodup)
    (hok : applyLevels u m levels = .ok mfin) :
    getVal mfin k =
      some (.list (firstDedup cur
        ((levels.map (fun lvl => contribOf lvl k)).join))) := by
  induction levels generalizing m cur with
  | nil =>
    simp only [applyLevels, Except.ok.injEq] at hok
    subst hok
    simpa [firstDedup] using hcur
  | cons lvl rest ih =>
    simp only [applyLevels] at hok
    split at hok
    · exact absurd hok (by simp)
    · next m' rel heq =>
      have hstep := ucki_append_key u m lvl m' rel k hk hna heq
      rw [hcur] at hstep
      simp only [Option.getD_some, asList] at hstep
      have hstep' : getVal m' k =
          some (.list (appendMerge cur (contribOf lvl k))) := hstep
      rw [appendMerge_eq_firstDedup _ _ (hnd lvl (List.mem_cons_self _ _))]
        at hstep'
      have := ih m' (firstDedup cur (contribOf lvl k)) hstep'
        (fun l hl => hnd l (List.mem_cons_of_mem _ hl)) hok
      rw [List.map_cons,
        show (contribOf lvl k ::
            List.map (fun l => contribOf l k) rest).join =
          contribOf lvl k ++ (List.map (fun l => contribOf l k) rest).join
          from rfl,
        firstDedup_append]
      exact this

/-- C4 counterexample: a single level declaring `tags: ["a", "a"]` yields a
resolved list in which `"a"` appears twice — the duplicate inside one
level's list survives, because the membership filter is evaluated against
the accumulator as it stood before the extension. -/
theorem claim_C4_cex :
    (ConfigUpdater.update_config_keys_into ⟨[]⟩ scaffoldConfig
        [("tags", Value.list [Value.str "a", Value.str "a"])]).map
        (fun pr => getVal pr.1 "tags") =
      .ok (some (.list [Value.str "a", Value.str "a"])) ∧
    ¬ ([Value.str "a", Value.str "a"].Nodup) :=
  ⟨rfl, by decide⟩

/-- C4 (amended): provided each contributing level's list for an AppendList
key is itself duplicate-free, the iterated level merge starting from the
scaffold resolves the key to each distinct element exactly once, in order of
first appearance across the merge; an element already present in the
accumulator before a level's merge is never appended again. Duplicates
inside a single level's list survive (see the counterexample). -/
theorem claim_C4 (u : ConfigUpdater) (levels : List Config) (k : String)
    (mfin : Config) (hk : k ∈ AppendListFields)
    (hna : k ∉ u.AdapterSpecificConfigs)
    (hnd : ∀ lvl ∈ levels, (contribOf lvl k).Nodup)
    (hok : applyLevels u scaffoldConfig levels = .ok mfin) :
    getVal mfin k =
      some (.list (firstDedup []
        ((levels.map (fun lvl => contribOf lvl k)).join))) ∧
    (firstDedup [] ((levels.map (fun lvl => contribOf lvl k)).join)).Nodup :=
  ⟨applyLevels_append_key u levels k scaffoldConfig mfin [] hk hna
      (scaffold_append_shape k hk) hnd hok,
    firstDedup_nodup _ [] List.nodup_nil⟩

/-- Witness for C4 at a concrete input: `tags: ["a","b"]` at one level and
`["b","c"]` at the next resolve to `["a","b","c"]`. -/
theorem claim_C4_witness :
    getVal ((applyLevels ⟨[]⟩ scaffoldConfig
        [[("tags", Value.list [Value.str "a", Value.str "b"])],
         [("tags", Value.list [Value.str "b", Value.str "c"])]]).toOption.getD [])
        "tags" =
      some (.list (firstDedup []
        (([[("tags", Value.list [Value.str "a", Value.str "b"])],
           [("tags", Value.list [Value.str "b", Value.str "c"])]].map
          (fun lvl => contribOf lvl "tags")).join))) ∧
    (firstDedup []
      (([[("tags", Value.list [Value.str "a", Value.str "b"])],
         [("tags", Value.list [Value.str "b", Value.str "c"])]].map
        (fun lvl => contribOf lvl "tags")).join)).Nodup := by
  have h := claim_C4 ⟨[]⟩
    [[("tags", Value.list [Value.str "a", Value.str "b"])],
     [("tags", Value.list [Value.str "b", Value.str "c"])]] "tags"
    ((applyLevels ⟨[]⟩ scaffoldConfig
        [[("tags", Value.list [Value.str "a", Value.str "b"])],
         [("tags", Value.list [Value.str "b", Value.str "c"])]]).toOption.getD [])
    (by decide) (by decide)
    (by intro lvl hl
        simp only [List.mem_cons, List.not_mem_nil, or_false] at hl
        rcases hl with rfl | rfl <;> decide)
    rfl
  exact h

theorem update_into_append (u : ConfigUpdater) (pre : Config) (s : Config)
    (m m1 : Config) (hpre : u.update_into m pre = (m1, none)) :
    u.update_into m (pre ++ s) = u.update_into m1 s := by
  induction pre generalizing m with
  | nil =>
    simp only [ConfigUpdater.update_into, Prod.mk.injEq] at hpre
    rw [List.nil_append, hpre.1]
  | cons p t ih =>
    obtain ⟨key, value⟩ := p
    rw [List.cons_append]
    by_cases h1 : key ∈ AppendListFields
    · simp only [ConfigUpdater.update_into, if_pos h1] at hpre ⊢
      exact ih _ hpre
    · by_cases h2 : key ∈ ExtendDictFields
      · simp only [ConfigUpdater.update_into, if_neg h1, if_pos h2] at hpre ⊢
        cases hcur : getVal m key with
        | none =>
          rw [hcur] at hpre
          by_cases hr : (updateItems value).2 = true
          · simp only [if_pos hr] at hpre
            exact absurd hpre (by simp)
          · simp only [if_neg hr] at hpre ⊢
            exact ih _ hpre
        | some cur =>
          rw [hcur] at hpre
          cases cur with
          | map cm =>
            by_cases hr : (updateItems value).2 = true
            · simp only [if_pos hr] at hpre
              exact absurd hpre (by simp)
            · simp only [if_neg hr] at hpre ⊢
              exact ih _ hpre
          | bool b => exact absurd hpre (by simp)
          | int i => exact absurd hpre (by simp)
          | str s2 => exact absurd hpre (by simp)
          | list xs => exact absurd hpre (by simp)
      · simp only [ConfigUpdater.update_into, if_neg h1, if_neg h2] at hpre ⊢
        exact ih _ hpre

/-- C10: `update_into` — and with it `update_in_model_config` — is not
atomic on error: when the input holds, after other entries, an ExtendDict
key with a non-map value on which the dict update raises (a number, a
boolean, a non-empty string, a list whose first element is not pair-like),
the entries before the offending one remain applied in the returned
accumulator state when the error is raised. -/
theorem claim_C10 (u : ConfigUpdater) (m m1 : Config) (pre rest : Config)
    (k : String) (v : Value)
    (hpre : u.update_into m pre = (m1, none))
    (hk : k ∈ ExtendDictFields) (hv : updateItems v = ([], true)) :
    u.update_into m (pre ++ (k, v) :: rest) =
      (m1, some ⟨invalidDictMsg k⟩) ∧
    ∀ (s : SourceConfig) (raw : Config), s.updater = u →
      s.in_model_config = m →
      s.active_project.translate_aliases raw = pre ++ (k, v) :: rest →
      s.update_in_model_config raw = (m1, some ⟨invalidDictMsg k⟩) := by
  have hmain : u.update_into m (pre ++ (k, v) :: rest) =
      (m1, some ⟨invalidDictMsg k⟩) := by
    rw [update_into_append u pre _ m m1 hpre]
    exact update_into_raises u m1 rest k v hk hv
  refine ⟨hmain, fun s raw hu hm htr => ?_⟩
  rw [SourceConfig.update_in_model_config, hu, hm, htr]
  exact hmain

/-- Witness for C10 at a concrete input: `materialized` is applied before a
bad `vars` raises, leaving the accumulator partially updated. -/
theorem claim_C10_witness :
    ConfigUpdater.update_into ⟨[]⟩ []
        ([("materialized", Value.str "table")] ++
          ("vars", Value.int 1) :: [("schema", Value.str "s")]) =
      ([("materialized", Value.str "table")], some ⟨invalidDictMsg "vars"⟩) ∧
    SourceConfig.update_in_model_config
        ⟨⟨"p", none, none, none, fun c => c⟩,
         ⟨"p", none, none, none, fun c => c⟩,
         ⟨["m1"], .Model⟩, ⟨[]⟩, []⟩
        ([("materialized", Value.str "table")] ++
          ("vars", Value.int 1) :: [("schema", Value.str "s")]) =
      ([("materialized", Value.str "table")], some ⟨invalidDictMsg "vars"⟩) := by
  have h := claim_C10 ⟨[]⟩ [] [("materialized", Value.str "table")]
    [("materialized", Value.str "table")] [("schema", Value.str "s")]
    "vars" (Value.int 1) rfl (by decide) (by decide)
  exact ⟨h.1, h.2
    ⟨⟨"p", none, none, none, fun c => c⟩,
     ⟨"p", none, none, none, fun c => c⟩,
     ⟨["m1"], .Model⟩, ⟨[]⟩, []⟩
    ([("materialized", Value.str "table")] ++
      ("vars", Value.int 1) :: [("schema", Value.str "s")]) rfl rfl rfl⟩

theorem nodup_keysOf_filter (c : Config) (f : String × Value → Bool)
    (h : (keysOf c).Nodup) : (keysOf (c.filter f)).Nodup := by
  have hsub : (keysOf (c.filter f)).Sublist (keysOf c) :=
    (List.filter_sublist c).map Prod.fst
  exact h.sublist hsub

theorem getVal_mergeStep_clobber (u : ConfigUpdater) (merged config : Config)
    (k : String) (hk : k ∈ u.ClobberFields)
    (hmerged : (keysOf merged).Nodup) (hconfig : (keysOf config).Nodup) :
    getVal (mergeStep u merged config) k =
      match getVal config k with
      | some v => some v
      | none => getVal merged k := by
  have hremainder : getVal (config.filter
      (fun p => decide (p.1 ∉ u.ClobberFields))) k = none := by
    have h := getVal_filter_keyUniform config
      (fun s => decide (s ∉ u.ClobberFields)) k
    rw [if_neg (by simp [hk])] at h
    exact h
  have hclobber : getVal (config.filter
      (fun p => decide (p.1 ∈ u.ClobberFields))) k = getVal config k := by
    have h := getVal_filter_keyUniform config
      (fun s => decide (s ∈ u.ClobberFields)) k
    rw [if_pos (by simp [hk])] at h
    exact h
  have hdm : getVal (deepMergePairs merged (config.filter
      (fun p => decide (p.1 ∉ u.ClobberFields)))) k = getVal merged k :=
    getVal_deepMergePairs_not_mem _ _ _
      ((getVal_eq_none_iff _ _).mp hremainder)
  have hdmnodup : (keysOf (deepMergePairs merged (config.filter
      (fun p => decide (p.1 ∉ u.ClobberFields))))).Nodup :=
    nodupKeys_deepMergePairs _ _ hmerged
  have hinternodup : (keysOf (updateWith (deepMergePairs merged
      (config.filter (fun p => decide (p.1 ∉ u.ClobberFields))))
      (config.filter (fun p => decide (p.1 ∈ u.ClobberFields))))).Nodup :=
    nodupKeys_updateWith _ _ hdmnodup
  have hclobnodup : (keysOf (config.filter
      (fun p => decide (p.1 ∈ u.ClobberFields)))).Nodup :=
    nodup_keysOf_filter _ _ hconfig
  have hinter : getVal (updateWith (deepMergePairs merged
      (config.filter (fun p => decide (p.1 ∉ u.ClobberFields))))
      (config.filter (fun p => decide (p.1 ∈ u.ClobberFields)))) k =
      match getVal config k with
      | some v => some v
      | none => getVal merged k := by
    rw [getVal_updateWith, getValLast_eq_getVal _ _ hclobnodup, hclobber, hdm]
  rw [mergeStep, getVal_updateWith, getValLast_eq_getVal _ _ hinternodup,
    hinter]
  cases hc : getVal config k with
  | some v => rfl
  | none =>
    cases hm : getVal merged k <;> rfl

theorem mergeStep_nodup (u : ConfigUpdater) (merged config : Config)
    (hmerged : (keysOf merged).Nodup) :
    (keysOf (mergeStep u merged config)).Nodup :=
  nodupKeys_updateWith _ _ hmerged

theorem merge_foldl_clobber (u : ConfigUpdater) (configs : List Config)
    (merged : Config) (k : String) (hk : k ∈ u.ClobberFields)
    (hmerged : (keysOf merged).Nodup)
    (hnd : ∀ c ∈ configs, (keysOf c).Nodup) :
    getVal (configs.foldl (mergeStep u) merged) k =
      configs.foldl
        (fun acc c => match getVal c k with | some v => some v | none => acc)
        (getVal merged k) := by
  induction configs generalizing merged with
  | nil => rfl
  | cons c t ih =>
    simp only [List.foldl_cons]
    rw [ih (mergeStep u merged c)
      (mergeStep_nodup u merged c hmerged)
      (fun c' hc' => hnd c' (List.mem_cons_of_mem _ hc')),
      getVal_mergeStep_clobber u merged c k hk hmerged
        (hnd c (List.mem_cons_self _ _))]

/-- C3: for every sequence of configs passed to `merge` in precedence order
and every Clobber key, the merged value for that key is the value supplied
by the latest config containing the key (absent when no config supplies it),
regardless of intervening configs' values — Clobber values are never
structurally merged. -/
theorem claim_C3 (u : ConfigUpdater) (configs : List Config) (k : String)
    (hk : k ∈ u.ClobberFields)
    (hnd : ∀ c ∈ configs, (keysOf c).Nodup) :
    getVal (u.merge configs) k = lastContrib k configs :=
  merge_foldl_clobber u configs [] k hk List.nodup_nil hnd

/-- Witness for C3 at a concrete input: three scopes, the latest containing
`materialized` wins even though an intervening scope also supplies it. -/
theorem claim_C3_witness :
    getVal (ConfigUpdater.merge ⟨[]⟩
      [[("materialized", Value.str "view")],
       [("materialized", Value.str "table"), ("alias", Value.str "a")],
       [("materialized", Value.str "incremental")]]) "materialized" =
      lastContrib "materialized"
        [[("materialized", Value.str "view")],
         [("materialized", Value.str "table"), ("alias", Value.str "a")],
         [("materialized", Value.str "incremental")]] :=
  claim_C3 ⟨[]⟩
    [[("materialized", Value.str "view")],
     [("materialized", Value.str "table"), ("alias", Value.str "a")],
     [("materialized", Value.str "incremental")]] "materialized"
    (by decide)
    (fun c hc => by
      simp only [List.mem_cons, List.not_mem_nil, or_false] at hc
      rcases hc with rfl | rfl | rfl <;> decide)

mutual

/-- Every dict nested inside the value binds each key at most once (true of
any data that came from Python dicts / YAML mappings). -/
def valueNodupDeep : Value → Bool
  | .map m => nodupKeys m && pairsNodupDeep m
  | _ => true

/-- Conjunction of `valueNodupDeep` over the values of a dict's entries. -/
def pairsNodupDeep : Config → Bool
  | [] => true
  | (_, v) :: rest => valueNodupDeep v && pairsNodupDeep rest

end

/-- A project-configuration (sub-)tree with no duplicated key anywhere. -/
def configNodupDeep (c : Config) : Bool := nodupKeys c && pairsNodupDeep c

theorem mem_of_getVal (c : Config) (k : String) (v : Value)
    (h : getVal c k = some v) : (k, v) ∈ c := by
  induction c with
  | nil => simp [getVal] at h
  | cons p rest ih =>
    obtain ⟨k₀, v₀⟩ := p
    rcases eq_or_ne k₀ k with rfl | hne
    · simp [getVal] at h
      subst h
      exact List.mem_cons_self _ _
    · simp only [getVal, if_neg hne] at h
      exact List.mem_cons_of_mem _ (ih h)

theorem getVal_of_mem_nodup (c : Config) (k : String) (v : Value)
    (hmem : (k, v) ∈ c) (hnd : (keysOf c).Nodup) : getVal c k = some v := by
  induction c with
  | nil => simp at hmem
  | cons p rest ih =>
    obtain ⟨k₀, v₀⟩ := p
    simp only [keysOf, List.map_cons, List.nodup_cons] at hnd
    rcases List.mem_cons.mp hmem with heq | hmem'
    · injection heq with h1 h2
      subst h1; subst h2
      simp [getVal]
    · have hne : k₀ ≠ k := by
        rintro rfl
        exact hnd.1 (List.mem_map_of_mem Prod.fst hmem')
      simp only [getVal, if_neg hne]
      exact ih hmem' hnd.2

theorem pairsNodupDeep_mem (c : Config) (k : String) (v : Value)
    (hmem : (k, v) ∈ c) (h : pairsNodupDeep c = true) :
    valueNodupDeep v = true := by
  induction c with
  | nil => simp at hmem
  | cons p rest ih =>
    obtain ⟨k₀, v₀⟩ := p
    simp only [pairsNodupDeep, Bool.and_eq_true] at h
    rcases List.mem_cons.mp hmem with heq | hmem'
    · injection heq with h1 h2
      subst h2
      exact h.1
    · exact ih hmem' h.2

theorem child_configNodupDeep (mcs : Config) (level : String) (node : Value)
    (hwf : configNodupDeep mcs = true) (hnode : getVal mcs level = some node) :
    configNodupDeep (asPairs node) = true := by
  simp only [configNodupDeep, Bool.and_eq_true] at hwf
  have hval := pairsNodupDeep_mem mcs level node
    (mem_of_getVal mcs level node hnode) hwf.2
  cases node with
  | map m =>
    simp only [valueNodupDeep] at hval
    exact hval
  | bool b => rfl
  | int i => rfl
  | str st => rfl
  | list xs => rfl

theorem updateWith_id_of_getVal (m n : Config)
    (h : ∀ p ∈ n, getVal m p.1 = some p.2) : updateWith m n = m := by
  induction n with
  | nil => rfl
  | cons p t ih =>
    have hstep : setKey m p.1 p.2 = m :=
      setKey_of_getVal_eq _ _ _ (h p (List.mem_cons_self _ _))
    show updateWith (setKey m p.1 p.2) t = m
    rw [hstep]
    exact ih (fun q hq => h q (List.mem_cons_of_mem _ hq))

theorem reapply_identity (u : ConfigUpdater) (config new m' rel : Config)
    (hnd : (keysOf new).Nodup)
    (hok : u.update_config_keys_into config new = .ok (m', rel)) :
    updateWith m' (rel.filter
      (fun p => decide (p.1 ∉ AppendListFields ∧ p.1 ∉ ExtendDictFields)))
      = m' := by
  obtain ⟨hrel, -, -, -⟩ := ucki_ok_elim u config new m' rel hok
  refine updateWith_id_of_getVal _ _ ?_
  rintro ⟨k, v⟩ hkv
  rw [List.mem_filter] at hkv
  obtain ⟨hmemrel, hp⟩ := hkv
  simp only [decide_eq_true_eq] at hp
  have hmemnew : (k, v) ∈ new ∧ k ∈ u.ConfigKeys := by
    rw [hrel, List.mem_filter] at hmemrel
    simpa using hmemrel
  have hclob : k ∈ u.ClobberFields := by
    rcases (mem_configKeys_iff u k).mp hmemnew.2 with h | h | h
    · exact absurd h hp.1
    · exact absurd h hp.2
    · exact h
  have hnewval : getVal new k = some v :=
    getVal_of_mem_nodup new k v hmemnew.1 hnd
  rw [ucki_clobber_key u config new m' rel k hp.1 hp.2 hclob hok, hnewval]
  rfl

theorem walk_eq_noreapply (u : ConfigUpdater) (fqn : List String)
    (config mcs : Config) (hwf : configNodupDeep mcs = true) :
    walkLevels u config mcs fqn = walkLevelsNoReapply u config mcs fqn := by
  induction fqn generalizing config mcs with
  | nil => rfl
  | cons level rest ih =>
    simp only [walkLevels, walkLevelsNoReapply]
    cases hnode : getVal mcs level with
    | none => rfl
    | some node =>
      dsimp only
      cases heq : u.update_config_keys_into config (asPairs node) with
      | error e => rfl
      | ok pr =>
        obtain ⟨config', rel⟩ := pr
        dsimp only
        have hwfnode : configNodupDeep (asPairs node) = true :=
          child_configNodupDeep mcs level node hwf hnode
        have hnd : (keysOf (asPairs node)).Nodup := by
          simp only [configNodupDeep, Bool.and_eq_true, nodupKeys,
            decide_eq_true_eq] at hwfnode
          exact hwfnode.1
        rw [reapply_identity u config (asPairs node) config' rel hnd heq]
        exact ih _ _ hwfnode

/-- C9: the re-application of each level's non-AppendList, non-ExtendDict
relevant fields after the level merge (lines 165-173) is behaviorally
redundant: `get_project_config` equals the variant with that second
application removed, on every tree whose dicts are duplicate-free (as all
Python dicts are). -/
theorem claim_C9 (u : ConfigUpdater) (model : ModelParts) (project : Project)
    (hwf : ∀ mcs,
      (if model.resource_type = NodeType.Seed then project.seeds
        else if model.resource_type = NodeType.Snapshot then project.snapshots
        else project.models) = some mcs →
      configNodupDeep mcs = true) :
    u.get_project_config model project =
      u.get_project_config_noreapply model project := by
  simp only [ConfigUpdater.get_project_config,
    ConfigUpdater.get_project_config_noreapply]
  cases htree : (if model.resource_type = NodeType.Seed then project.seeds
      else if model.resource_type = NodeType.Snapshot then project.snapshots
      else project.models) with
  | none => rfl
  | some mcs =>
    dsimp only
    cases heq : u.update_config_keys_into scaffoldConfig mcs with
    | error e => rfl
    | ok pr =>
      obtain ⟨config1, rel⟩ := pr
      exact walk_eq_noreapply u model.fqn config1 mcs (hwf mcs htree)

/-- Witness for C9 at a concrete input (a two-level tree with clobber,
append and extend fields at each level). -/
theorem claim_C9_witness :
    ConfigUpdater.get_project_config ⟨[]⟩ ⟨["pkgA", "m1"], .Model⟩
        ⟨"p", some [("pkgA", Value.map
          [("materialized", Value.str "table"),
           ("tags", Value.list [Value.str "a"]),
           ("m1", Value.map [("materialized", Value.str "incremental"),
             ("vars", Value.map [("x", Value.int 1)])])])],
          none, none, fun c => c⟩ =
      ConfigUpdater.get_project_config_noreapply ⟨[]⟩ ⟨["pkgA", "m1"], .Model⟩
        ⟨"p", some [("pkgA", Value.map
          [("materialized", Value.str "table"),
           ("tags", Value.list [Value.str "a"]),
           ("m1", Value.map [("materialized", Value.str "incremental"),
             ("vars", Value.map [("x", Value.int 1)])])])],
          none, none, fun c => c⟩ :=
  claim_C9 ⟨[]⟩ ⟨["pkgA", "m1"], .Model⟩
    ⟨"p", some [("pkgA", Value.map
      [("materialized", Value.str "table"),
       ("tags", Value.list [Value.str "a"]),
       ("m1", Value.map [("materialized", Value.str "incremental"),
         ("vars", Value.map [("x", Value.int 1)])])])],
      none, none, fun c => c⟩
    (fun mcs h => by
      simp at h
      subst h
      decide)

/-- C1: `config` resolution order. When the owning package name equals the
active package name the result is
`merge(defaults, active-scope config, pending inline config)` and the owning
tree is never read — any owning project with the same name yields the same
result; otherwise the result is
`merge(defaults, own-scope config, pending inline config, active-scope
config)`, so the active package's settings take precedence over the owning
package's own settings and over inline declarations. -/
theorem claim_C1 (s : SourceConfig) :
    (s.active_project.project_name = s.own_project.project_name →
      (∀ activeCfg, s.load_config_from_active_project = .ok activeCfg →
        s.config = .ok (s.updater.merge
          [get_default s.model.resource_type, activeCfg,
           s.in_model_config])) ∧
      ∀ own', own'.project_name = s.own_project.project_name →
        SourceConfig.config { s with own_project := own' } = s.config) ∧
    (s.active_project.project_name ≠ s.own_project.project_name →
      ∀ ownCfg activeCfg,
        s.load_config_from_own_project = .ok ownCfg →
        s.load_config_from_active_project = .ok activeCfg →
        s.config = .ok (s.updater.merge
          [get_default s.model.resource_type, ownCfg, s.in_model_config,
           activeCfg])) := by
  constructor
  · intro hname
    constructor
    · intro activeCfg hact
      simp only [SourceConfig.config, hact]
      rw [if_pos hname]
    · intro own' hname'
      simp only [SourceConfig.config, SourceConfig.load_config_from_active_project]
      cases hact : s.updater.get_project_config s.model s.active_project with
      | error e => rfl
      | ok activeCfg =>
        rw [hname']
        dsimp only
        simp only [if_pos hname]
  · intro hname ownCfg activeCfg hown hact
    simp only [SourceConfig.config, hact, if_neg hname, hown]

/-- Concrete projects for the C1 witness: `pApp` is the active project,
`pAppAlt` a different project carrying the same package name, `pDep` an
upstream package with another name. -/
def pApp : Project := ⟨"app", none, none, none, fun c => c⟩

/-- Same package name as `pApp`, different tree contents. -/
def pAppAlt : Project :=
  ⟨"app", some [("materialized", Value.str "x")], none, none, fun c => c⟩

/-- A dependency package with a different name. -/
def pDep : Project := ⟨"dep", none, none, none, fun c => c⟩

/-- Witness for C1: both ownership branches at concrete inputs, plus the
own-tree independence in the same-name case. -/
theorem claim_C1_witness :
    SourceConfig.config ⟨pApp, pApp, ⟨["m"], .Model⟩, ⟨[]⟩, []⟩ =
      .ok (ConfigUpdater.merge ⟨[]⟩
        [get_default .Model, scaffoldConfig, []]) ∧
    SourceConfig.config ⟨pApp, pAppAlt, ⟨["m"], .Model⟩, ⟨[]⟩, []⟩ =
      SourceConfig.config ⟨pApp, pApp, ⟨["m"], .Model⟩, ⟨[]⟩, []⟩ ∧
    SourceConfig.config ⟨pApp, pDep, ⟨["m"], .Model⟩, ⟨[]⟩, []⟩ =
      .ok (ConfigUpdater.merge ⟨[]⟩
        [get_default .Model, scaffoldConfig, [], scaffoldConfig]) := by
  have h1 := claim_C1 ⟨pApp, pApp, ⟨["m"], .Model⟩, ⟨[]⟩, []⟩
  have h2 := claim_C1 ⟨pApp, pDep, ⟨["m"], .Model⟩, ⟨[]⟩, []⟩
  exact ⟨(h1.1 rfl).1 scaffoldConfig rfl,
    (h1.1 rfl).2 pAppAlt rfl,
    h2.2 (by simp [pApp, pDep]) scaffoldConfig scaffoldConfig rfl rfl⟩

theorem mem_keysOf_setKey (c : Config) (k : String) (v : Value) (x : String)
    (h : x ∈ keysOf (setKey c k v)) : x ∈ keysOf c ∨ x = k := by
  by_cases hm : k ∈ keysOf c
  · rw [keysOf_setKey_mem c k v hm] at h
    exact Or.inl h
  · rw [keysOf_setKey_not_mem c k v hm] at h
    rcases List.mem_append.mp h with h | h
    · exact Or.inl h
    · exact Or.inr (List.mem_singleton.mp h)

theorem mem_keysOf_updateWith (m n : Config) (x : String)
    (h : x ∈ keysOf (updateWith m n)) : x ∈ keysOf m ∨ x ∈ keysOf n := by
  induction n generalizing m with
  | nil => exact Or.inl h
  | cons p t ih =>
    rcases ih (setKey m p.1 p.2) h with h' | h'
    · rcases mem_keysOf_setKey m p.1 p.2 x h' with h'' | h''
      · exact Or.inl h''
      · refine Or.inr ?_
        simp only [keysOf, List.map_cons, List.mem_cons]
        exact Or.inl h''
    · refine Or.inr ?_
      simp only [keysOf, List.map_cons, List.mem_cons]
      exact Or.inr h'

theorem mem_keysOf_deepMergePairs (a b : Config) (x : String)
    (h : x ∈ keysOf (deepMergePairs a b)) :
    x ∈ keysOf a ∨ x ∈ keysOf b := by
  induction b generalizing a with
  | nil => exact Or.inl (by simpa [deepMergePairs] using h)
  | cons p t ih =>
    obtain ⟨k, v⟩ := p
    simp only [deepMergePairs] at h
    rcases ih _ h with h' | h'
    · rcases mem_keysOf_setKey a k _ x h' with h'' | h''
      · exact Or.inl h''
      · refine Or.inr ?_
        simp only [keysOf, List.map_cons, List.mem_cons]
        exact Or.inl h''
    · refine Or.inr ?_
      simp only [keysOf, List.map_cons, List.mem_cons]
      exact Or.inr h'

theorem mem_keysOf_filter (c : Config) (f : String × Value → Bool)
    (x : String) (h : x ∈ keysOf (c.filter f)) : x ∈ keysOf c :=
  ((List.filter_sublist c).map Prod.fst).subset h

theorem getVal_mergeStep_none (u : ConfigUpdater) (merged config : Config)
    (k : String) (h1 : getVal merged k = none) (h2 : getVal config k = none) :
    getVal (mergeStep u merged config) k = none := by
  have hkm : k ∉ keysOf merged := (getVal_eq_none_iff _ _).mp h1
  have hkc : k ∉ keysOf config := (getVal_eq_none_iff _ _).mp h2
  have hkrem : k ∉ keysOf (config.filter
      (fun p => decide (p.1 ∉ u.ClobberFields))) :=
    fun hx => hkc (mem_keysOf_filter _ _ _ hx)
  have hkclob : k ∉ keysOf (config.filter
      (fun p => decide (p.1 ∈ u.ClobberFields))) :=
    fun hx => hkc (mem_keysOf_filter _ _ _ hx)
  have hkdm : k ∉ keysOf (deepMergePairs merged (config.filter
      (fun p => decide (p.1 ∉ u.ClobberFields)))) := fun hx =>
    (mem_keysOf_deepMergePairs _ _ _ hx).elim hkm hkrem
  have hkinter : k ∉ keysOf (updateWith (deepMergePairs merged
      (config.filter (fun p => decide (p.1 ∉ u.ClobberFields))))
      (config.filter (fun p => decide (p.1 ∈ u.ClobberFields)))) := fun hx =>
    (mem_keysOf_updateWith _ _ _ hx).elim hkdm hkclob
  simp only [mergeStep]
  rw [getVal_updateWith, (getValLast_eq_none_iff _ _).mpr hkinter]
  exact h1

theorem getVal_deepMergePairs_some :
    ∀ (b a : Config) (k : String) (v : Value),
      getVal a k = none → getVal b k = some v → (keysOf b).Nodup →
      getVal (deepMergePairs a b) k = some v
  | [], _, _, _, _, hb, _ => by simp [getVal] at hb
  | (k', v') :: t, a, k, v, ha, hb, hnd => by
    simp only [keysOf, List.map_cons, List.nodup_cons] at hnd
    rcases eq_or_ne k' k with rfl | hne
    · simp [getVal] at hb
      subst hb
      simp only [deepMergePairs, ha]
      rw [getVal_deepMergePairs_not_mem _ t k' hnd.1]
      exact getVal_setKey_self a k' v'
    · simp only [getVal, if_neg hne] at hb
      simp only [deepMergePairs]
      exact getVal_deepMergePairs_some t (setKey a k' _) k v
        (by rw [getVal_setKey_ne _ _ _ _ hne]; exact ha) hb hnd.2

theorem getVal_mergeStep_some (u : ConfigUpdater) (merged config : Config)
    (k : String) (v : Value) (hk : k ∉ u.ClobberFields)
    (hmn : getVal merged k = none) (hcv : getVal config k = some v)
    (hmnd : (keysOf merged).Nodup) (hcnd : (keysOf config).Nodup) :
    getVal (mergeStep u merged config) k = some v := by
  have hrem : getVal (config.filter
      (fun p => decide (p.1 ∉ u.ClobberFields))) k = getVal config k := by
    have h := getVal_filter_keyUniform config
      (fun s => decide (s ∉ u.ClobberFields)) k
    rw [if_pos (by simp [hk])] at h
    exact h
  have hclob : getVal (config.filter
      (fun p => decide (p.1 ∈ u.ClobberFields))) k = none := by
    have h := getVal_filter_keyUniform config
      (fun s => decide (s ∈ u.ClobberFields)) k
    rw [if_neg (by simp [hk])] at h
    exact h
  have hremnd : (keysOf (config.filter
      (fun p => decide (p.1 ∉ u.ClobberFields)))).Nodup :=
    nodup_keysOf_filter _ _ hcnd
  have hdm : getVal (deepMergePairs merged (config.filter
      (fun p => decide (p.1 ∉ u.ClobberFields)))) k = some v :=
    getVal_deepMergePairs_some _ _ _ _ hmn (by rw [hrem]; exact hcv) hremnd
  have hdmnd := nodupKeys_deepMergePairs merged (config.filter
      (fun p => decide (p.1 ∉ u.ClobberFields))) hmnd
  have hinter : getVal (updateWith (deepMergePairs merged (config.filter
      (fun p => decide (p.1 ∉ u.ClobberFields))))
      (config.filter (fun p => decide (p.1 ∈ u.ClobberFields)))) k
      = some v := by
    rw [getVal_updateWith,
      (getValLast_eq_none_iff _ _).mpr ((getVal_eq_none_iff _ _).mp hclob)]
    exact hdm
  have hinternd := nodupKeys_updateWith _ (config.filter
      (fun p => decide (p.1 ∈ u.ClobberFields))) hdmnd
  simp only [mergeStep]
  rw [getVal_updateWith, getValLast_eq_getVal _ _ hinternd, hinter]

theorem getVal_merge_unrecognized (u : ConfigUpdater) (d a p : Config)
    (k : String) (v : Value) (hk : k ∉ u.ClobberFields)
    (hd : getVal d k = none) (ha : getVal a k = none)
    (hp : getVal p k = some v) (hnd : (keysOf p).Nodup) :
    getVal (u.merge [d, a, p]) k = some v := by
  have h0 : getVal (mergeStep u [] d) k = none :=
    getVal_mergeStep_none u [] d k rfl hd
  have h1 : getVal (mergeStep u (mergeStep u [] d) a) k = none :=
    getVal_mergeStep_none u _ a k h0 ha
  have hnd1 : (keysOf (mergeStep u (mergeStep u [] d) a)).Nodup :=
    mergeStep_nodup u _ a (mergeStep_nodup u [] d List.nodup_nil)
  have hres := getVal_mergeStep_some u _ p k v hk h1 hp hnd1 hnd
  simpa [ConfigUpdater.merge] using hres

theorem get_default_unrecognized (u : ConfigUpdater) (rt : NodeType)
    (k : String) (hk : k ∉ u.ConfigKeys) :
    getVal (get_default rt) k = none := by
  have hcl : ∀ k₀, k₀ ∈ DefaultClobberFields → k ≠ k₀ := by
    intro k₀ hmem heq
    subst heq
    exact hk ((mem_configKeys_iff u k).mpr (Or.inr (Or.inr
      ((mem_clobber_iff u k).mpr (Or.inl hmem)))))
  have h1 : k ≠ "enabled" := hcl _ (by decide)
  have h2 : k ≠ "materialized" := hcl _ (by decide)
  have h3 : k ≠ "severity" := hcl _ (by decide)
  cases rt <;>
    simp [get_default, getVal, setKey, Ne.symm h1, Ne.symm h2, Ne.symm h3]

theorem scaffold_unrecognized (k : String)
    (h1 : k ∉ AppendListFields) (h2 : k ∉ ExtendDictFields) :
    getVal scaffoldConfig k = none := by
  rw [getVal_eq_none_iff]
  intro hmem
  have hkeys : keysOf scaffoldConfig =
      AppendListFields ++ ExtendDictFields := by decide
  rw [hkeys] at hmem
  rcases List.mem_append.mp hmem with h | h
  · exact h1 h
  · exact h2 h

theorem walk_unrecognized (u : ConfigUpdater) (fqn : List String)
    (config mcs cfg : Config) (k : String) (hk : k ∉ u.ConfigKeys)
    (hok : walkLevels u config mcs fqn = .ok cfg) :
    getVal cfg k = getVal config k := by
  induction fqn generalizing config mcs with
  | nil =>
    simp only [walkLevels, Except.ok.injEq] at hok
    rw [hok]
  | cons level rest ih =>
    simp only [walkLevels] at hok
    split at hok
    · simp only [Except.ok.injEq] at hok
      rw [hok]
    · next node hnode =>
      split at hok
      · exact absurd hok (by simp)
      · next config' rel heq =>
        have hrelk : getVal rel k = none :=
          (ucki_unrecognized_key u config (asPairs node) config' rel k hk
            heq).2
        have hkeys : k ∉ keysOf (rel.filter (fun p =>
            decide (p.1 ∉ AppendListFields ∧ p.1 ∉ ExtendDictFields))) :=
          fun hx => (getVal_eq_none_iff rel k).mp hrelk
            (mem_keysOf_filter _ _ _ hx)
        have hpres : getVal (updateWith config' (rel.filter (fun p =>
            decide (p.1 ∉ AppendListFields ∧ p.1 ∉ ExtendDictFields)))) k
            = getVal config' k := by
          rw [getVal_updateWith, (getValLast_eq_none_iff _ _).mpr hkeys]
        rw [ih _ _ hok, hpres,
          (ucki_unrecognized_key u config (asPairs node) config' rel k hk
            heq).1]

theorem gpc_unrecognized_none (u : ConfigUpdater) (model : ModelParts)
    (project : Project) (cfg : Config) (k : String) (hk : k ∉ u.ConfigKeys)
    (hok : u.get_project_config model project = .ok cfg) :
    getVal cfg k = none := by
  have h1 : k ∉ AppendListFields :=
    fun h => hk ((mem_configKeys_iff u k).mpr (Or.inl h))
  have h2 : k ∉ ExtendDictFields :=
    fun h => hk ((mem_configKeys_iff u k).mpr (Or.inr (Or.inl h)))
  simp only [ConfigUpdater.get_project_config] at hok
  split at hok
  · simp only [Except.ok.injEq] at hok
    subst hok
    exact scaffold_unrecognized k h1 h2
  · next mcs hmcs =>
    split at hok
    · exact absurd hok (by simp)
    · next config1 rel heq =>
      rw [walk_unrecognized u model.fqn config1 mcs cfg k hk hok,
        (ucki_unrecognized_key u scaffoldConfig mcs config1 rel k hk heq).1]
      exact scaffold_unrecognized k h1 h2

/-- C6 counterexample: an unrecognized key passed to `update_into` is stored
in the pending accumulator (the claim says it never appears there). -/
theorem claim_C6_cex :
    ("frobnicate" ∉ (ConfigUpdater.mk []).ConfigKeys) ∧
    ConfigUpdater.update_into ⟨[]⟩ [] [("frobnicate", .int 1)] =
      ([("frobnicate", .int 1)], none) ∧
    getVal (ConfigUpdater.update_into ⟨[]⟩ [] [("frobnicate", .int 1)]).1
      "frobnicate" = some (.int 1) :=
  ⟨by decide, rfl, rfl⟩

/-- C6 (amended): unrecognized keys are ignored by
`update_config_keys_into` — they appear neither in the accumulator it
produces nor in its relevant-keys result — but `update_into` applies every
key outside the AppendList and ExtendDict sets, recognized or not, as a
clobber assignment, so an unrecognized inline key is stored in the pending
accumulator, and from there it reaches the result of `resolve()`: the
resolved configuration binds the key to the pending value. -/
theorem claim_C6 (u : ConfigUpdater) (m new m' rel pending : Config)
    (k : String) (v : Value) (hk : k ∉ u.ConfigKeys)
    (hok : u.update_config_keys_into m new = .ok (m', rel)) :
    (getVal m' k = getVal m k ∧ getVal rel k = none) ∧
    ((u.update_into pending [(k, v)]).1 = setKey pending k v ∧
      getVal (u.update_into pending [(k, v)]).1 k = some v) ∧
    ∀ (s : SourceConfig) (activeCfg : Config),
      s.updater = u →
      s.active_project.project_name = s.own_project.project_name →
      getVal s.in_model_config k = some v →
      (keysOf s.in_model_config).Nodup →
      s.load_config_from_active_project = .ok activeCfg →
      ∃ res, s.config = .ok res ∧ getVal res k = some v := by
  have h1 : k ∉ AppendListFields :=
    fun h => hk ((mem_configKeys_iff u k).mpr (Or.inl h))
  have h2 : k ∉ ExtendDictFields :=
    fun h => hk ((mem_configKeys_iff u k).mpr (Or.inr (Or.inl h)))
  have h3 : k ∉ u.ClobberFields :=
    fun h => hk ((mem_configKeys_iff u k).mpr (Or.inr (Or.inr h)))
  refine ⟨ucki_unrecognized_key u m new m' rel k hk hok, ⟨?_, ?_⟩, ?_⟩
  · simp [ConfigUpdater.update_into, h1, h2]
  · simp [ConfigUpdater.update_into, h1, h2, getVal_setKey_self]
  · intro s activeCfg hu hname hpend hnodup hload
    have hload' := hload
    rw [SourceConfig.load_config_from_active_project, hu] at hload'
    have hacfg : getVal activeCfg k = none :=
      gpc_unrecognized_none u s.model s.active_project activeCfg k hk hload'
    have hd : getVal (get_default s.model.resource_type) k = none :=
      get_default_unrecognized u s.model.resource_type k hk
    have hcfg : s.config = .ok (s.updater.merge
        [get_default s.model.resource_type, activeCfg,
         s.in_model_config]) := by
      simp only [SourceConfig.config, hload]
      rw [if_pos hname]
    refine ⟨_, hcfg, ?_⟩
    rw [hu]
    exact getVal_merge_unrecognized u _ activeCfg _ k v h3 hd hacfg hpend
      hnodup

/-- Witness for C6 at a concrete input, including the key's arrival in the
result of `config`/`resolve()`. -/
theorem claim_C6_witness :
    ("quux" ∉ (ConfigUpdater.mk []).ConfigKeys) ∧
    ((getVal scaffoldConfig "quux" = getVal ([] : Config) "quux" ∧
        getVal ([] : Config) "quux" = none) ∧
      ((ConfigUpdater.update_into ⟨[]⟩ [("enabled", Value.bool true)]
          [("quux", Value.int 2)]).1 =
        setKey [("enabled", Value.bool true)] "quux" (Value.int 2) ∧
       getVal (ConfigUpdater.update_into ⟨[]⟩ [("enabled", Value.bool true)]
          [("quux", Value.int 2)]).1 "quux" = some (Value.int 2)) ∧
      ∃ res, SourceConfig.config
          ⟨⟨"app6", none, none, none, fun c => c⟩,
           ⟨"app6", none, none, none, fun c => c⟩,
           ⟨["m"], .Model⟩, ⟨[]⟩, [("quux", Value.int 2)]⟩ = .ok res ∧
        getVal res "quux" = some (Value.int 2)) := by
  have h := claim_C6 ⟨[]⟩ [] [] scaffoldConfig [] [("enabled", Value.bool true)]
    "quux" (Value.int 2) (by decide) rfl
  exact ⟨by decide, h.1, h.2.1,
    h.2.2 ⟨⟨"app6", none, none, none, fun c => c⟩,
           ⟨"app6", none, none, none, fun c => c⟩,
           ⟨["m"], .Model⟩, ⟨[]⟩, [("quux", Value.int 2)]⟩
      scaffoldConfig rfl rfl (by decide) (by decide) rfl⟩
